import Mathlib

/-!
MiSTer WebMenu: the scan-and-index engine of `src/srv/main.go`.

A shallow embedding of `scanRBF`, `scanMRA` and `ScanForCores` together with the
library routines they call (`strings`, `path`, `regexp`, `crypto/md5`), followed by
theorems about them.

Conventions of the embedding:

* a Go `string` is a `List Char` (`Str`); the separators the program looks for are all
  ASCII, so working on characters instead of UTF-8 bytes changes nothing for valid text;
* a file's content is a list of bytes, each a `Nat` read modulo 256;
* the filesystem is a record of oracles (`FS`): what `os.Stat`, reading a file,
  `filepath.Glob` and `godirwalk.Walk` answer;
* constants of the package `system`, which is not part of this file's source, are the
  fields of `Config`.
-/

namespace WebMenu

/-- A Go string. -/
abbrev Str := List Char

/-! ## Package `strings` -/

/-- The function `strings.HasPrefix(s, prefix)`. -/
def HasPrefix (s pre : Str) : Bool := pre.isPrefixOf s

/-- The function `strings.TrimPrefix(s, prefix)`: `s` without the leading `prefix`, or `s` itself when
it does not start with it. -/
def TrimPrefix (s pre : Str) : Str :=
  if HasPrefix s pre then s.drop pre.length else s

/-- The function `strings.TrimLeft(s, cutset)`: drop every leading character that is in `cutset`. -/
def TrimLeft (s cutset : Str) : Str := s.dropWhile (fun c => cutset.contains c)

/-- The worker of `Split`: `cur` is the piece being read, in reverse. -/
def splitGo (sep : Char) : Str → Str → List Str
  | [], cur => [cur.reverse]
  | c :: rest, cur =>
    if c = sep then cur.reverse :: splitGo sep rest [] else splitGo sep rest (c :: cur)

/-- The function `strings.Split(s, sep)` for a separator of one character, which is what both call
sites pass (`"/"` and `"|"`). The result is never empty: `Split("", sep)` is `[""]`. -/
def Split (s : Str) (sep : Char) : List Str := splitGo sep s []

/-- The function `unicode.ToLower` on one character. The ASCII capitals move to their small letters.
Outside ASCII Go consults the Unicode tables; the only two characters there whose lower
case is an ASCII letter are U+0130 and U+212A, which are kept; every other character
is left as it is, which cannot change a comparison with an ASCII word. -/
def toLowerRune (c : Char) : Char :=
  if 'A' ≤ c ∧ c ≤ 'Z' then Char.ofNat (c.toNat + 32)
  else if c = Char.ofNat 0x130 then 'i'
  else if c = Char.ofNat 0x212A then 'k'
  else c

/-- The function `strings.ToLower(s)`. -/
def ToLower (s : Str) : Str := s.map toLowerRune

/-- The function `strings.Join(elems, "/")`, as used inside `path.Join`. -/
def joinSlash : List Str → Str
  | [] => []
  | [e] => e
  | e :: es => e ++ '/' :: joinSlash es

/-! ## Package `path` -/

/-- The backtracking of the `..` case of `path.Clean`: starting from write index `w`,
move left while `w > dotdot` and the byte at `w` is not a slash. -/
def cleanBack (buf : Str) (dotdot : Nat) : Nat → Nat → Nat
  | 0, w => w
  | fuel + 1, w =>
    if w > dotdot ∧ buf.getD w ' ' ≠ '/' then cleanBack buf dotdot fuel (w - 1) else w

/-- The main loop of `path.Clean`. `rest` is the unread input (`path[r:]`), `out` the
bytes written so far (`out.w` is its length), `dotdot` the index where `..` must stop.
Every round consumes at least one character, so `fuel = len(path)` rounds are enough. -/
def cleanLoop (rooted : Bool) : Nat → Str → Str → Nat → Str
  | 0, _, out, _ => out
  | _, [], out, _ => out
  | fuel + 1, c :: r, out, dotdot =>
    if c = '/' then
      -- empty path element
      cleanLoop rooted fuel r out dotdot
    else if c = '.' ∧ (r = [] ∨ r.head? = some '/') then
      -- . element
      cleanLoop rooted fuel r out dotdot
    else if c = '.' ∧ r.head? = some '.' ∧ (r.tail = [] ∨ r.tail.head? = some '/') then
      -- .. element: remove to last /
      if out.length > dotdot then
        cleanLoop rooted fuel r.tail
          (out.take (cleanBack out dotdot out.length (out.length - 1))) dotdot
      else if !rooted then
        let out1 := (if out.length > 0 then out ++ ['/'] else out) ++ ['.', '.']
        cleanLoop rooted fuel r.tail out1 out1.length
      else
        cleanLoop rooted fuel r.tail out dotdot
    else
      -- real path element: add slash if needed, then copy the element
      let out1 :=
        if (rooted && out.length != 1) || (!rooted && out.length != 0) then out ++ ['/']
        else out
      cleanLoop rooted fuel (r.dropWhile (fun x => x != '/'))
        (out1 ++ c :: r.takeWhile (fun x => x != '/')) dotdot

/-- The function `path.Clean(path)`: the shortest path name equivalent to `path`. -/
def Clean (path : Str) : Str :=
  if path = [] then ['.']
  else
    let rooted := path.head? = some '/'
    let out :=
      if rooted then cleanLoop true path.length path.tail ['/'] 1
      else cleanLoop false path.length path [] 0
    if out = [] then ['.'] else out

/-- The first component of `path.Split(path)`: everything up to and including the last
slash, empty when there is none. -/
def splitDir (path : Str) : Str := (path.reverse.dropWhile (fun c => c != '/')).reverse

/-- The function `path.Dir(path)`: all but the last element of `path`, cleaned. -/
def Dir (path : Str) : Str := Clean (splitDir path)

/-- The function `path.Base(path)`: the last element of `path`. -/
def Base (path : Str) : Str :=
  if path = [] then ['.']
  else
    -- strip trailing slashes
    let p := (path.reverse.dropWhile (fun c => c == '/')).reverse
    -- find the last element
    let b := (p.reverse.takeWhile (fun c => c != '/')).reverse
    -- if empty now, it had only slashes
    if b = [] then ['/'] else b

/-- The loop of `path.Ext`, run over the reversed path: `acc` is the text already passed. -/
def extGo : Str → Str → Str
  | [], _ => []
  | c :: rest, acc =>
    if c = '/' then [] else if c = '.' then c :: acc else extGo rest (c :: acc)

/-- The function `path.Ext(path)`: the suffix beginning at the final dot in the final element of
`path`; empty if there is no dot. -/
def Ext (path : Str) : Str := extGo path.reverse []

/-- The function `path.Join(elem...)`: ignore leading empty elements, join the rest with slashes and
clean the result; the empty string when every element is empty. -/
def Join : List Str → Str
  | [] => []
  | e :: es => if e = [] then Join es else Clean (joinSlash (e :: es))

/-! ## Package `crypto/md5` (RFC 1321) and `fmt` -/

/-- The per-round shift amounts of MD5. -/
def md5Shift : List Nat :=
  [7, 12, 17, 22, 7, 12, 17, 22, 7, 12, 17, 22, 7, 12, 17, 22,
   5, 9, 14, 20, 5, 9, 14, 20, 5, 9, 14, 20, 5, 9, 14, 20,
   4, 11, 16, 23, 4, 11, 16, 23, 4, 11, 16, 23, 4, 11, 16, 23,
   6, 10, 15, 21, 6, 10, 15, 21, 6, 10, 15, 21, 6, 10, 15, 21]

/-- The sine table of MD5: entry `i` is the integer part of `2^32 * |sin (i + 1)|`. -/
def md5Sine : List Nat :=
  [0xd76aa478, 0xe8c7b756, 0x242070db, 0xc1bdceee,
   0xf57c0faf, 0x4787c62a, 0xa8304613, 0xfd469501,
   0x698098d8, 0x8b44f7af, 0xffff5bb1, 0x895cd7be,
   0x6b901122, 0xfd987193, 0xa679438e, 0x49b40821,
   0xf61e2562, 0xc040b340, 0x265e5a51, 0xe9b6c7aa,
   0xd62f105d, 0x02441453, 0xd8a1e681, 0xe7d3fbc8,
   0x21e1cde6, 0xc33707d6, 0xf4d50d87, 0x455a14ed,
   0xa9e3e905, 0xfcefa3f8, 0x676f02d9, 0x8d2a4c8a,
   0xfffa3942, 0x8771f681, 0x6d9d6122, 0xfde5380c,
   0xa4beea44, 0x4bdecfa9, 0xf6bb4b60, 0xbebfbc70,
   0x289b7ec6, 0xeaa127fa, 0xd4ef3085, 0x04881d05,
   0xd9d4d039, 0xe6db99e5, 0x1fa27cf8, 0xc4ac5665,
   0xf4292244, 0x432aff97, 0xab9423a7, 0xfc93a039,
   0x655b59c3, 0x8f0ccc92, 0xffeff47d, 0x85845dd1,
   0x6fa87e4f, 0xfe2ce6e0, 0xa3014314, 0x4e0811a1,
   0xf7537e82, 0xbd3af235, 0x2ad7d2bb, 0xeb86d391]

/-- Rotate a 32-bit word left by `s` bits. -/
def rotl32 (x s : Nat) : Nat := ((x <<< s) ||| (x >>> (32 - s))) % 2 ^ 32

/-- A 32-bit word from four bytes, least significant first. -/
def leWord (bs : List Nat) : Nat :=
  bs.getD 0 0 % 256 + 256 * (bs.getD 1 0 % 256) + 65536 * (bs.getD 2 0 % 256)
    + 16777216 * (bs.getD 3 0 % 256)

/-- The `n` low bytes of `x`, least significant first. -/
def leBytes : Nat → Nat → List Nat
  | 0, _ => []
  | n + 1, x => x % 256 :: leBytes n (x / 256)

/-- MD5 padding: a one bit, zeros up to 56 modulo 64, then the bit length on 8 bytes. -/
def md5Pad (msg : List Nat) : List Nat :=
  msg ++ 0x80 :: List.replicate ((119 - msg.length % 64) % 64) 0
    ++ leBytes 8 (8 * msg.length % 2 ^ 64)

/-- One of the 64 steps of the MD5 compression function on the block words `m`. -/
def md5Step (m : List Nat) (s : Nat × Nat × Nat × Nat) (i : Nat) : Nat × Nat × Nat × Nat :=
  let (a, b, c, d) := s
  let nb := b ^^^ 0xffffffff
  let nd := d ^^^ 0xffffffff
  let f :=
    if i < 16 then (b &&& c) ||| (nb &&& d)
    else if i < 32 then (d &&& b) ||| (nd &&& c)
    else if i < 48 then b ^^^ c ^^^ d
    else c ^^^ (b ||| nd)
  let g :=
    if i < 16 then i
    else if i < 32 then (5 * i + 1) % 16
    else if i < 48 then (3 * i + 5) % 16
    else (7 * i) % 16
  let f1 := (f + a + md5Sine.getD i 0 + m.getD g 0) % 2 ^ 32
  (d, (b + rotl32 f1 (md5Shift.getD i 0)) % 2 ^ 32, b, c)

/-- The compression function: mix one 64-byte block into the state. -/
def md5Block (s : Nat × Nat × Nat × Nat) (block : List Nat) : Nat × Nat × Nat × Nat :=
  let m := (List.range 16).map (fun j => leWord (block.drop (4 * j)))
  let (a, b, c, d) := (List.range 64).foldl (md5Step m) s
  ((s.1 + a) % 2 ^ 32, (s.2.1 + b) % 2 ^ 32, (s.2.2.1 + c) % 2 ^ 32, (s.2.2.2 + d) % 2 ^ 32)

/-- Run the compression function over `n` consecutive blocks of `bs`. -/
def md5Blocks : Nat → List Nat → Nat × Nat × Nat × Nat → Nat × Nat × Nat × Nat
  | 0, _, s => s
  | n + 1, bs, s => md5Blocks n (bs.drop 64) (md5Block s (bs.take 64))

/-- The MD5 checksum (16 bytes) of a byte string. -/
def md5 (msg : List Nat) : List Nat :=
  let p := md5Pad msg
  let (a, b, c, d) := md5Blocks (p.length / 64) p (0x67452301, 0xefcdab89, 0x98badcfe, 0x10325476)
  leBytes 4 a ++ leBytes 4 b ++ leBytes 4 c ++ leBytes 4 d

/-- A hexadecimal digit, lower case. -/
def hexDigit (n : Nat) : Char := "0123456789abcdef".toList.getD n '0'

/-- The call `fmt.Sprintf("%x", b)` for a byte slice: two lower-case hexadecimal digits per byte. -/
def hexString (bs : List Nat) : Str :=
  bs.flatMap (fun b => [hexDigit (b % 256 / 16), hexDigit (b % 16)])

/-- The running hash `hash.Hash` returned by `md5.New()`: the bytes written so far. -/
structure Digest where
  written : List Nat

/-- The function `md5.New()`. -/
def md5New : Digest := ⟨[]⟩

/-- The method `Write`, which is what `io.Copy(h, f)` feeds the file through. -/
def Digest.Write (h : Digest) (p : List Nat) : Digest := ⟨h.written ++ p⟩

/-- The method `Sum(b)`: append the checksum of what was written to `b` and return the
resulting slice; the state of the hash is not changed. -/
def Digest.Sum (h : Digest) (b : List Nat) : List Nat := b ++ md5 h.written


/-! ## Package `regexp` -/

/-- The fragment of the RE2 syntax that the program's pattern is written in. -/
inductive Regex where
  /-- The anchor `^`: the beginning of the text (no multi-line flag is set) -/
  | beginText
  /-- The anchor `$`: the end of the text -/
  | endText
  /-- one character of a class, such as `_`, `\d` or `[^_]` -/
  | cls (p : Char → Bool)
  /-- The loop `x*` for a class `x`: zero or more characters, preferring more -/
  | star (p : Char → Bool)
  /-- The concatenation `ab` -/
  | cat (a b : Regex)
  /-- The pattern `(a)`, the capturing group number `i` -/
  | group (i : Nat) (a : Regex)
  /-- the empty pattern -/
  | empty

/-- The pattern `x+` is `xx*`. -/
def Regex.plus (p : Char → Bool) : Regex := .cat (.cls p) (.star p)

/-- The pattern `x{n}` is `n` copies of `x`. -/
def Regex.rep (p : Char → Bool) : Nat → Regex
  | 0 => .empty
  | n + 1 => .cat (.cls p) (Regex.rep p n)

/-- A thread of the matcher: `pos` characters of the text are consumed, `rest` is what
remains, `caps` holds the text of each capturing group that has been closed. -/
structure Thread where
  pos : Nat
  rest : Str
  caps : List (Option Str)

/-- The greedy loop of `x*`: consume one more character of the class and go on; when
that leads nowhere, or the next character is not in the class, stop here and continue
with `k`. -/
def starRun (p : Char → Bool) (k : Thread → Option (List (Option Str))) :
    Str → Nat → List (Option Str) → Option (List (Option Str))
  | [], pos, caps => k ⟨pos, [], caps⟩
  | c :: r, pos, caps =>
    if p c then
      match starRun p k r (pos + 1) caps with
      | some m => some m
      | none => k ⟨pos, c :: r, caps⟩
    else k ⟨pos, c :: r, caps⟩

/-- A backtracking matcher in continuation-passing style: `run re k t` matches `re` at
thread `t` and hands every way of doing so to `k`, in the order of preference of the
leftmost-first semantics that `regexp` implements; the first success is the answer. -/
def Regex.run : Regex → (Thread → Option (List (Option Str))) → Thread →
    Option (List (Option Str))
  | .empty, k, t => k t
  | .beginText, k, t => if t.pos = 0 then k t else none
  | .endText, k, t => if t.rest = [] then k t else none
  | .cls p, k, t =>
    match t.rest with
    | [] => none
    | c :: r => if p c then k ⟨t.pos + 1, r, t.caps⟩ else none
  | .star p, k, t => starRun p k t.rest t.pos t.caps
  | .cat a b, k, t => a.run (b.run k) t
  | .group i a, k, t =>
    a.run (fun t' => k ⟨t'.pos, t'.rest, t'.caps.set i (some (t.rest.take (t'.pos - t.pos)))⟩) t

/-- Try to match at the current offset, then at every later one. -/
def findFrom (re : Regex) (ngroups : Nat) : Nat → Str → Option (List (Option Str))
  | pos, [] => (Regex.group 0 re).run (fun t => some t.caps) ⟨pos, [], List.replicate (ngroups + 1) none⟩
  | pos, c :: r =>
    match (Regex.group 0 re).run (fun t => some t.caps) ⟨pos, c :: r, List.replicate (ngroups + 1) none⟩ with
    | some m => some m
    | none => findFrom re ngroups (pos + 1) r

/-- The method `re.FindStringSubmatch(s)`: the text of the leftmost match and of each of its
`ngroups` groups (empty for a group that took no part), or `none` (Go: `nil`) when the
pattern matches nowhere. -/
def FindStringSubmatch (re : Regex) (ngroups : Nat) (s : Str) : Option (List Str) :=
  (findFrom re ngroups 0 s).map (fun caps => caps.map (fun c => c.getD []))

/-- The class `\d`: an ASCII digit. -/
def isDigit (c : Char) : Bool := decide ('0' ≤ c ∧ c ≤ '9')

/-- The pattern of `scanRBF`, `^([^_]+)_(\d{8})[^\.]*\.rbf$`, which has two groups. -/
def rbfPattern : Regex :=
  .cat .beginText <|
  .cat (.group 1 (Regex.plus (fun c => c != '_'))) <|
  .cat (.cls (fun c => c == '_')) <|
  .cat (.group 2 (Regex.rep isDigit 8)) <|
  .cat (.star (fun c => c != '.')) <|
  .cat (.cls (fun c => c == '.')) <|
  .cat (.cls (fun c => c == 'r')) <|
  .cat (.cls (fun c => c == 'b')) <|
  .cat (.cls (fun c => c == 'f')) .endText



/-! ## The data model of `main.go` -/

/-- The constants of the package `system` that the engine reads. -/
structure Config where
  /-- the storage root, `system.SdPath` -/
  SdPath : Str
  /-- the location of the persisted index, `system.CoresDBPath` -/
  CoresDBPath : Str

/-- The answers of the filesystem during one call. -/
structure FS where
  /-- what `os.Stat(name)` gives: the modification time in Unix seconds, or `none` for
  an error -/
  stat : Str → Option Int
  /-- the bytes read from `name` (`ioutil.ReadFile`, or `os.Open` followed by `io.Copy`),
  or `none` when opening or reading fails -/
  readFile : Str → Option (List Nat)
  /-- the matches of `filepath.Glob(pattern)` -/
  glob : Str → List Str
  /-- the path names that `godirwalk.Walk(root, ...)` hands to its callback, in order -/
  walk : Str → List Str
  /-- whether `ioutil.WriteFile(name, ...)` succeeds -/
  writeOK : Str → Bool

/-- The element type of `MRA.Roms`. -/
structure Rom where
  Zip : Str
deriving DecidableEq, Repr

/-- The struct `MRA`. -/
structure MRA where
  Path : Str
  Filename : Str
  Ctime : Int
  LogicPath : List Str
  MD5 : Str
  Name : Str
  Rbf : Str
  Roms : List Rom
  RomsFound : Bool
deriving DecidableEq, Repr

/-- The struct `RBF`. -/
structure RBF where
  Path : Str
  Filename : Str
  Codename : Str
  Codedate : Str
  Ctime : Int
  LogicPath : List Str
  MD5 : Str
deriving DecidableEq, Repr

/-- The struct `Cores`. -/
structure Cores where
  RBFs : List RBF
  MRAs : List MRA
deriving DecidableEq, Repr

/-- Why a per-file scan failed. -/
inductive ScanError where
  | stat
  | read
  | xml
deriving DecidableEq, Repr

/-- What `xml.Unmarshal` found in a well-formed document, field by field of the struct
`MRA`. The package `encoding/xml` fills every exported field: it looks for the element
named in the `xml` tag (`name`, `rbf`, `rom`) and, for a field without such a tag, for
the element named like the Go field (`Path`, `Filename`, `Ctime`, `LogicPath`, `MD5`,
`RomsFound`). A scalar field is `none` when the document has no such element; a slice
field lists the elements found, in document order. -/
structure MRAXml where
  Path : Option Str
  Filename : Option Str
  Ctime : Option Int
  LogicPath : List Str
  MD5 : Option Str
  Name : Option Str
  Rbf : Option Str
  Roms : List Rom
  RomsFound : Option Bool
deriving DecidableEq, Repr

/-- The decoder of `encoding/xml` seen as a function of the file content: `none` is a
decoding error. -/
abbrev XmlDecoder := List Nat → Option MRAXml

/-- The effect of `xml.Unmarshal(x, &c)` on `c`: a scalar found in the document
overwrites the field, the elements found for a slice are appended to it. -/
def MRAXml.store (doc : MRAXml) (c : MRA) : MRA :=
  { Path := doc.Path.getD c.Path
    Filename := doc.Filename.getD c.Filename
    Ctime := doc.Ctime.getD c.Ctime
    LogicPath := c.LogicPath ++ doc.LogicPath
    MD5 := doc.MD5.getD c.MD5
    Name := doc.Name.getD c.Name
    Rbf := doc.Rbf.getD c.Rbf
    Roms := c.Roms ++ doc.Roms
    RomsFound := doc.RomsFound.getD c.RomsFound }

/-! ## `scanRBF` and `scanMRA` -/

/-- The `LPATH` loop, written twice in the source (lines 91-95 and 171-175): walk over
the segments and append the marked ones, without their leading underscores, to `acc`. -/
def lpathLoop : List Str → List Str → List Str
  | acc, [] => acc
  | acc, d :: ds =>
    if HasPrefix d ['_'] then lpathLoop (acc ++ [TrimLeft d ['_']]) ds
    else lpathLoop acc ds

/-- The inner loop of lines 112-128: probe the alternatives of one record in order, in
the directory of the definition, then in `mame`, then in `hbmame`; stop at the first
hit. The result is `thisFound`. -/
def probeAlternatives (fs : FS) (baseDir : Str) : List Str → Bool
  | [] => false
  | zip :: rest =>
    if (fs.stat (Join [baseDir, zip])).isSome then true
    else if (fs.stat (Join [baseDir, "mame".toList, zip])).isSome then true
    else if (fs.stat (Join [baseDir, "hbmame".toList, zip])).isSome then true
    else probeAlternatives fs baseDir rest

/-- The loop of lines 104-130 over the slice `roms`, which it rewrites in place. The
first argument counts the rounds that remain at most (`len(c.Roms) - i`); `i` is the
read index, `rp` the write index, `found` is `c.RomsFound`. -/
def romsLoop (fs : FS) (baseDir : Str) :
    Nat → List Rom → Nat → Nat → Bool → List Rom × Nat × Bool
  | 0, roms, _, rp, found => (roms, rp, found)
  | n + 1, roms, i, rp, found =>
    if !found then (roms, rp, found)
    else
      match roms[i]? with
      | none => (roms, rp, found)
      | some rom =>
        if rom.Zip = [] then romsLoop fs baseDir n roms (i + 1) rp found
        else
          romsLoop fs baseDir n (roms.set rp rom) (i + 1) (rp + 1)
            (found && probeAlternatives fs baseDir (Split rom.Zip '|'))

/-- The function `scanMRA(filename)`. A Go result `(c, err)` with `err != nil` is
`Except.error`: the caller drops `c` in that case. -/
def scanMRA (cfg : Config) (xml : XmlDecoder) (fs : FS) (filename : Str) :
    Except ScanError MRA :=
  -- Path
  match fs.stat filename with
  | none => .error .stat
  | some mtime =>
    -- MD5
    match fs.readFile filename with
    | none => .error .read
    | some x =>
      let h := md5New
      let _ := h.Sum x
      let md5hex := hexString (h.Sum [])
      -- NAME
      let baseDir := Dir filename
      -- LPATH
      let lpath := lpathLoop [] (Split (TrimPrefix baseDir cfg.SdPath) '/')
      let c : MRA :=
        { Path := filename, Filename := Base filename, Ctime := mtime, LogicPath := lpath,
          MD5 := md5hex, Name := [], Rbf := [], Roms := [], RomsFound := false }
      match xml x with
      | none => .error .xml
      | some doc =>
        let c := doc.store c
        let (roms, rp, found) := romsLoop fs baseDir c.Roms.length c.Roms 0 0 true
        .ok { c with Roms := roms.take rp, RomsFound := found }

/-- The function `scanRBF(filename)`. -/
def scanRBF (cfg : Config) (fs : FS) (filename : Str) : Except ScanError RBF :=
  -- Path
  match fs.stat filename with
  | none => .error .stat
  | some mtime =>
    -- MD5
    match fs.readFile filename with
    | none => .error .read
    | some content =>
      let h := md5New.Write content
      let md5hex := hexString (h.Sum [])
      -- NAME
      let name := Base filename
      let (codename, codedate) :=
        match FindStringSubmatch rbfPattern 2 name with
        | some ms => (ms.getD 1 [], ms.getD 2 [])
        | none => ([], [])
      -- LPATH
      let lpath := lpathLoop [] (Split (TrimPrefix (Dir filename) cfg.SdPath) '/')
      .ok { Path := filename, Filename := name, Codename := codename, Codedate := codedate,
            Ctime := mtime, LogicPath := lpath, MD5 := md5hex }

/-! ## `ScanForCores` -/

/-- A call made by the handler. The trace of these calls is ghost state: it records
which library and scan functions one call of `ScanForCores` invoked, and the successful
write of the index. -/
inductive Event where
  | glob (pattern : Str)
  | walk (root : Str)
  | scanRBF (path : Str)
  | scanMRA (path : Str)
  | write (path : Str) (content : List Nat)
deriving DecidableEq, Repr

/-- The state that `ScanForCores` works on. -/
structure World where
  /-- the bytes of the file at `system.CoresDBPath`, `none` when `os.Stat` fails on it -/
  index : Option (List Nat)
  /-- the calls made so far -/
  trace : List Event
deriving DecidableEq, Repr

/-- The part of the HTTP request that the handler reads: `r.URL.Query()["force"]`, the
first value of the key and the further ones, or `none` when the key is absent. -/
structure Request where
  force : Option (Str × List Str)

/-- The local `doForce` of the handler: `ok && force[0] == "1"`. -/
def doForce (r : Request) : Bool :=
  match r.force with
  | some (v, _) => v == "1".toList
  | none => false

/-- How a call of the handler ends. -/
inductive Outcome where
  /-- the handler wrote the status and returned -/
  | returned (status : Nat) (w : World)
  /-- the function `log.Fatal` ended the process -/
  | fatal
deriving DecidableEq, Repr

/-- The callback handed to `godirwalk.Walk` (lines 262-283), for the scan functions
`scanR` and `scanM`: classify `osPathname` by its lower-cased extension, scan it, and
append the entry when the scan succeeded. The callback never fails. -/
def walkCallback (scanR : Str → Except ScanError RBF) (scanM : Str → Except ScanError MRA)
    (st : Cores × List Event) (osPathname : Str) : Cores × List Event :=
  let ext := ToLower (Ext osPathname)
  if ext = ".rbf".toList then
    match scanR osPathname with
    | .error _ => (st.1, st.2 ++ [.scanRBF osPathname])
    | .ok c => ({ st.1 with RBFs := st.1.RBFs ++ [c] }, st.2 ++ [.scanRBF osPathname])
  else if ext = ".mra".toList then
    match scanM osPathname with
    | .error _ => (st.1, st.2 ++ [.scanMRA osPathname])
    | .ok c => ({ st.1 with MRAs := st.1.MRAs ++ [c] }, st.2 ++ [.scanMRA osPathname])
  else st

/-- The walker pass of lines 255-289: glob the category roots under the storage root
and walk each of them with the callback. An error of `Walk` is printed and the loop goes
on, so it shows only in what `fs.walk` lists. -/
def walkerPass (cfg : Config) (scanR : Str → Except ScanError RBF)
    (scanM : Str → Except ScanError MRA) (fs : FS) (trace : List Event) :
    Cores × List Event :=
  let pattern := Join [cfg.SdPath, "_*".toList]
  let topLevels := fs.glob pattern
  topLevels.foldl
    (fun st root => (fs.walk root).foldl (walkCallback scanR scanM) (st.1, st.2 ++ [.walk root]))
    (({ RBFs := [], MRAs := [] } : Cores), trace ++ [.glob pattern])

/-- The handler `ScanForCores`, which runs as a whole under `scanMutex`. The function
`json.Marshal` cannot fail on a value of type `Cores` (strings, integers, booleans and
slices of them), so it is the total function `marshal`. -/
def ScanForCores (cfg : Config) (xml : XmlDecoder) (fs : FS) (marshal : Cores → List Nat)
    (r : Request) (w : World) : Outcome :=
  if doForce r || w.index.isNone then
    let (cores, trace) := walkerPass cfg (scanRBF cfg fs) (scanMRA cfg xml fs) fs w.trace
    let b := marshal cores
    if fs.writeOK cfg.CoresDBPath then
      .returned 200 { index := some b, trace := trace ++ [.write cfg.CoresDBPath b] }
    else .fatal
  else .returned 200 w

/-! ## Definitions in the words of the specification, and helpers of the proofs -/

/-- The logical path in the words of the specification: take the directory part of the
path, strip the storage-root prefix, split on the slash, keep in order exactly the
segments that begin with an underscore, and strip all leading underscores from each. -/
def logicPathRef (root path : Str) : List Str :=
  let dir := Dir path
  let rel := if root <+: dir then dir.drop root.length else dir
  ((Split rel '/').filter (fun seg => seg.head? = some '_')).map
    (fun seg => seg.dropWhile (fun c => c = '_'))

/-- The verdict on one record in the words of the specification, as a Boolean: some
alternative of the bar-separated list exists in the directory of the definition, in its
`mame` or in its `hbmame` subdirectory. -/
def satisfied (fs : FS) (baseDir : Str) (rom : Rom) : Bool :=
  (Split rom.Zip '|').any (fun alt =>
    (fs.stat (Join [baseDir, alt])).isSome
      || (fs.stat (Join [baseDir, "mame".toList, alt])).isSome
      || (fs.stat (Join [baseDir, "hbmame".toList, alt])).isSome)

/-- What the loop over the records computes, by recursion over the records still to be
read: the records it stores and the final verdict. -/
def checkedRoms (sat : Rom → Bool) : List Rom → List Rom × Bool
  | [] => ([], true)
  | r :: rs =>
    if r.Zip = [] then checkedRoms sat rs
    else if sat r then (r :: (checkedRoms sat rs).1, (checkedRoms sat rs).2)
    else ([r], false)

/-- The decomposition of a file name that the pattern describes: `name` is `c`, an
underscore, `d`, `s` and `.rbf`, with `c` non-empty and free of underscores, `d` exactly
eight ASCII digits and `s` free of dots. -/
def DatedName (name c d s : Str) : Prop :=
  name = c ++ "_".toList ++ d ++ s ++ ".rbf".toList ∧ c ≠ [] ∧ '_' ∉ c ∧
    d.length = 8 ∧ (∀ x ∈ d, '0' ≤ x ∧ x ≤ '9') ∧ '.' ∉ s

/-- The two parsed fields, as a function of the file name. -/
def parseName (name : Str) : Str × Str :=
  match FindStringSubmatch rbfPattern 2 name with
  | some ms => (ms.getD 1 [], ms.getD 2 [])
  | none => ([], [])

/-- The entries that a run of the callback over `visited` adds to `RBFs`. -/
def collectRBF (scanR : Str → Except ScanError RBF) (visited : List Str) : List RBF :=
  visited.filterMap
    (fun p => if ToLower (Ext p) = ".rbf".toList then (scanR p).toOption else none)

/-- The entries that a run of the callback over `visited` adds to `MRAs`. -/
def collectMRA (scanM : Str → Except ScanError MRA) (visited : List Str) : List MRA :=
  visited.filterMap
    (fun p => if ToLower (Ext p) = ".mra".toList then (scanM p).toOption else none)

/-- The scan calls that a run of the callback over `visited` makes. -/
def scanEvents (visited : List Str) : List Event :=
  visited.filterMap (fun p =>
    if ToLower (Ext p) = ".rbf".toList then some (Event.scanRBF p)
    else if ToLower (Ext p) = ".mra".toList then some (Event.scanMRA p)
    else none)

/-! ## A sample installation, used to instantiate the theorems -/

/-- The bytes of an ASCII text. -/
def asciiBytes (s : String) : List Nat := s.toList.map Char.toNat

/-- The storage root is `/sd`. -/
def sampleConfig : Config :=
  { SdPath := "/sd".toList, CoresDBPath := "/sd/cache/WebMenu/cores.json".toList }

/-- An arcade definition with one record of two alternatives. -/
def gamePath : Str := "/sd/_Arcade/_Console/game.mra".toList

/-- The content of `gamePath`. -/
def gameText : String :=
  "<misterromdescription><name>Game</name><rbf>core</rbf><rom index=\"0\" zip=\"rom1.zip|rom2.zip\"/></misterromdescription>"

/-- An arcade definition whose first archive is missing and whose second is present. -/
def lackingPath : Str := "/sd/_Arcade/lacking.mra".toList

/-- The content of `lackingPath`. -/
def lackingText : String :=
  "<misterromdescription><name>Lacking</name><rom index=\"0\"/><rom index=\"1\" zip=\"a.zip\"/><rom index=\"2\" zip=\"b.zip\"/></misterromdescription>"

/-- An arcade definition with an element named like the Go field `LogicPath`. -/
def injectPath : Str := "/sd/_Arcade/inject.mra".toList

/-- The content of `injectPath`. -/
def injectText : String :=
  "<misterromdescription><name>Inject</name><LogicPath>Extra</LogicPath></misterromdescription>"

/-- A logic image with a dated name. -/
def neoPath : Str := "/sd/_Console/NeoGeo_20210615_v2.rbf".toList

/-- A logic image whose codename contains an underscore. -/
def neoUnderscorePath : Str := "/sd/_Console/Neo_Geo_20210615.rbf".toList

/-- A logic image whose extension is written in capitals. -/
def neoUpperPath : Str := "/sd/_Console/NeoGeo_20210615.RBF".toList

/-- The content of the three logic images. -/
def coreBytes : List Nat := asciiBytes "core image"

/-- A document in which only `name` and the `rom` elements occur. -/
def plainDoc (name : Str) (roms : List Rom) : MRAXml :=
  { Path := none, Filename := none, Ctime := none, LogicPath := [], MD5 := none,
    Name := some name, Rbf := none, Roms := roms, RomsFound := none }

/-- What `encoding/xml` decodes from the three sample documents; any other content is
taken to be malformed. -/
def sampleXml : XmlDecoder := fun x =>
  if x = asciiBytes gameText then
    some { plainDoc "Game".toList [⟨"rom1.zip|rom2.zip".toList⟩] with Rbf := some "core".toList }
  else if x = asciiBytes lackingText then
    some (plainDoc "Lacking".toList [⟨[]⟩, ⟨"a.zip".toList⟩, ⟨"b.zip".toList⟩])
  else if x = asciiBytes injectText then
    some { plainDoc "Inject".toList [] with LogicPath := ["Extra".toList] }
  else none

/-- The files present under `/sd`. -/
def sampleFiles : List (Str × List Nat) :=
  [(gamePath, asciiBytes gameText),
   ("/sd/_Arcade/_Console/mame/rom2.zip".toList, [80, 75]),
   (lackingPath, asciiBytes lackingText),
   ("/sd/_Arcade/b.zip".toList, [80, 75]),
   (injectPath, asciiBytes injectText),
   ("/sd/_Arcade/broken.mra".toList, asciiBytes "<misterromdescription>"),
   ("/sd/_Arcade/readme.txt".toList, asciiBytes "read me"),
   (neoPath, coreBytes),
   (neoUnderscorePath, coreBytes),
   (neoUpperPath, coreBytes)]

/-- The sample filesystem: every file was last modified at 1623715200, the two category
roots are `/sd/_Arcade` and `/sd/_Console`, and the index can be written. -/
def sampleFS : FS where
  stat := fun p => (sampleFiles.lookup p).map (fun _ => 1623715200)
  readFile := fun p => sampleFiles.lookup p
  glob := fun pat =>
    if pat = "/sd/_*".toList then ["/sd/_Arcade".toList, "/sd/_Console".toList] else []
  walk := fun root =>
    if root = "/sd/_Arcade".toList then
      ["/sd/_Arcade".toList, "/sd/_Arcade/_Console".toList, gamePath,
       "/sd/_Arcade/broken.mra".toList, "/sd/_Arcade/readme.txt".toList, lackingPath]
    else if root = "/sd/_Console".toList then
      ["/sd/_Console".toList, neoPath, neoUpperPath]
    else []
  writeOK := fun _ => true

/-- A stand-in for `json.Marshal`: the numbers of entries of the two lists. -/
def sampleMarshal : Cores → List Nat := fun c => [c.RBFs.length, c.MRAs.length]

/-- The state after a first call of the handler on the sample installation, without
`force` and without an index. -/
def sampleWorld : World :=
  match ScanForCores sampleConfig sampleXml sampleFS sampleMarshal ⟨none⟩ ⟨none, []⟩ with
  | .returned _ w => w
  | .fatal => ⟨none, []⟩

/-! # Theorems -/

/-! ## Lemmas -/

theorem HasPrefix_underscore (d : Str) : HasPrefix d ['_'] = decide (d.head? = some '_') := by
  cases d with
  | nil => simp [HasPrefix]
  | cons c r =>
    simp only [HasPrefix, List.isPrefixOf, List.head?_cons, Option.some.injEq, Bool.and_true]
    rw [beq_eq_decide]
    exact decide_eq_decide.mpr eq_comm

theorem TrimLeft_underscore (d : Str) : TrimLeft d ['_'] = d.dropWhile (fun c => c = '_') := by
  unfold TrimLeft
  congr 1
  funext c
  show List.elem c ['_'] = decide (c = '_')
  rw [List.elem_cons]
  by_cases h : c = '_'
  · subst h; simp
  · have : (c == '_') = false := by simpa using h
    rw [this]
    simp only [List.elem_nil]
    exact (decide_eq_false h).symm

theorem lpathLoop_eq (acc : List Str) (ds : List Str) :
    lpathLoop acc ds = acc ++ (ds.filter (fun seg => seg.head? = some '_')).map
      (fun seg => seg.dropWhile (fun c => c = '_')) := by
  induction ds generalizing acc with
  | nil => simp [lpathLoop]
  | cons d ds ih =>
    simp only [lpathLoop, HasPrefix_underscore, TrimLeft_underscore]
    by_cases h : d.head? = some '_'
    · simp [h, ih]
    · simp [h, ih]

theorem TrimPrefix_eq (s pre : Str) : TrimPrefix s pre = if pre <+: s then s.drop pre.length else s := by
  simp [TrimPrefix, HasPrefix]

theorem probeAlternatives_eq (fs : FS) (baseDir : Str) (alts : List Str) :
    probeAlternatives fs baseDir alts = alts.any (fun alt =>
      (fs.stat (Join [baseDir, alt])).isSome
        || (fs.stat (Join [baseDir, "mame".toList, alt])).isSome
        || (fs.stat (Join [baseDir, "hbmame".toList, alt])).isSome) := by
  induction alts with
  | nil => rfl
  | cons a as ih =>
    simp only [probeAlternatives, List.any_cons, ih]
    cases (fs.stat (Join [baseDir, a])).isSome <;>
    cases (fs.stat (Join [baseDir, "mame".toList, a])).isSome <;>
    cases (fs.stat (Join [baseDir, "hbmame".toList, a])).isSome <;> simp

theorem probe_eq_satisfied (fs : FS) (baseDir : Str) (rom : Rom) :
    probeAlternatives fs baseDir (Split rom.Zip '|') = satisfied fs baseDir rom :=
  probeAlternatives_eq fs baseDir _

theorem romsLoop_false (fs : FS) (baseDir : Str) (n : Nat) (roms : List Rom) (i rp : Nat) :
    romsLoop fs baseDir n roms i rp false = (roms, rp, false) := by
  cases n <;> simp [romsLoop]

theorem romsLoop_skip (fs : FS) (baseDir : Str) (n : Nat) (roms : List Rom) (i rp : Nat)
    (hi : i < roms.length) (hz : roms[i].Zip = []) :
    romsLoop fs baseDir (n + 1) roms i rp true = romsLoop fs baseDir n roms (i + 1) rp true := by
  simp [romsLoop, List.getElem?_eq_getElem hi, hz]

theorem romsLoop_keep (fs : FS) (baseDir : Str) (n : Nat) (roms : List Rom) (i rp : Nat)
    (hi : i < roms.length) (hz : roms[i].Zip ≠ []) :
    romsLoop fs baseDir (n + 1) roms i rp true
      = romsLoop fs baseDir n (roms.set rp roms[i]) (i + 1) (rp + 1)
          (satisfied fs baseDir roms[i]) := by
  simp [romsLoop, List.getElem?_eq_getElem hi, hz, probe_eq_satisfied]

theorem take_succ_set {α : Type} (l : List α) (k : Nat) (a : α) (h : k < l.length) :
    (l.set k a).take (k + 1) = l.take k ++ [a] := by
  rw [List.set_eq_take_append_cons_drop, if_pos h, List.take_append_eq_append_take]
  simp [List.length_take, Nat.min_eq_left (Nat.le_of_lt h)]

theorem romsLoop_spec (fs : FS) (baseDir : Str) (n : Nat) :
    ∀ (roms : List Rom) (i rp : Nat), rp ≤ i → i + n = roms.length →
      ((romsLoop fs baseDir n roms i rp true).1.take (romsLoop fs baseDir n roms i rp true).2.1
          = roms.take rp ++ (checkedRoms (satisfied fs baseDir) (roms.drop i)).1)
        ∧ (romsLoop fs baseDir n roms i rp true).2.2
          = (checkedRoms (satisfied fs baseDir) (roms.drop i)).2 := by
  induction n with
  | zero =>
    intro roms i rp _ hlen
    have : roms.drop i = [] := List.drop_eq_nil_of_le (by omega)
    simp [romsLoop, this, checkedRoms]
  | succ n ih =>
    intro roms i rp hrp hlen
    have hi : i < roms.length := by omega
    have hdrop : roms.drop i = roms[i] :: roms.drop (i + 1) := List.drop_eq_getElem_cons hi
    rw [hdrop]
    by_cases hz : roms[i].Zip = []
    · rw [romsLoop_skip fs baseDir n roms i rp hi hz]
      have := ih roms (i + 1) rp (by omega) (by omega)
      simpa [checkedRoms, hz] using this
    · rw [romsLoop_keep fs baseDir n roms i rp hi hz]
      have htake : (roms.set rp roms[i]).take (rp + 1) = roms.take rp ++ [roms[i]] :=
        take_succ_set roms rp roms[i] (by omega)
      by_cases hs : satisfied fs baseDir roms[i] = true
      · have := ih (roms.set rp roms[i]) (i + 1) (rp + 1) (by omega)
          (by rw [List.length_set]; omega)
        rw [htake, List.drop_set_of_lt _ _ (by omega)] at this
        rw [hs]
        simpa [checkedRoms, hz, hs] using this
      · have hs' : satisfied fs baseDir roms[i] = false := by simpa using hs
        rw [hs', romsLoop_false]
        simp [checkedRoms, hz, hs', htake]

theorem romsLoop_run (fs : FS) (baseDir : Str) (roms : List Rom) :
    (romsLoop fs baseDir roms.length roms 0 0 true).1.take
        (romsLoop fs baseDir roms.length roms 0 0 true).2.1
      = (checkedRoms (satisfied fs baseDir) roms).1
    ∧ (romsLoop fs baseDir roms.length roms 0 0 true).2.2
      = (checkedRoms (satisfied fs baseDir) roms).2 := by
  have := romsLoop_spec fs baseDir roms.length roms 0 0 (Nat.le_refl 0) (by simp)
  simpa using this

theorem checkedRoms_found (sat : Rom → Bool) (roms : List Rom) :
    (checkedRoms sat roms).2 = true ↔ ∀ r ∈ roms, r.Zip ≠ [] → sat r = true := by
  induction roms with
  | nil => simp [checkedRoms]
  | cons r rs ih =>
    by_cases hz : r.Zip = []
    · simp [checkedRoms, hz, ih]
    · by_cases hs : sat r = true
      · simp [checkedRoms, hz, hs, ih]
      · simp [checkedRoms, hz, hs]

theorem checkedRoms_stored (sat : Rom → Bool) (roms : List Rom) :
    (checkedRoms sat roms).1
      = (roms.filter (fun r => decide (r.Zip ≠ []))).takeWhile sat
        ++ ((roms.filter (fun r => decide (r.Zip ≠ []))).dropWhile sat).take 1 := by
  induction roms with
  | nil => simp [checkedRoms]
  | cons r rs ih =>
    by_cases hz : r.Zip = []
    · simp [checkedRoms, hz, ih]
    · by_cases hs : sat r = true
      · simp [checkedRoms, hz, hs, ih, List.takeWhile_cons, List.dropWhile_cons]
      · simp [checkedRoms, hz, hs, List.takeWhile_cons, List.dropWhile_cons]

theorem checkedRoms_nonempty (sat : Rom → Bool) (roms : List Rom) :
    ∀ r ∈ (checkedRoms sat roms).1, r.Zip ≠ [] := by
  induction roms with
  | nil => simp [checkedRoms]
  | cons r rs ih =>
    by_cases hz : r.Zip = []
    · simpa [checkedRoms, hz] using ih
    · by_cases hs : sat r = true
      · simpa [checkedRoms, hz, hs] using ih
      · simp [checkedRoms, hz, hs]

theorem checkedRoms_dropLast (sat : Rom → Bool) (roms : List Rom) :
    ∀ r ∈ (checkedRoms sat roms).1.dropLast, sat r = true := by
  induction roms with
  | nil => simp [checkedRoms]
  | cons r rs ih =>
    by_cases hz : r.Zip = []
    · simpa [checkedRoms, hz] using ih
    · by_cases hs : sat r = true
      · simp only [checkedRoms, hz, hs, if_true, if_false]
        cases h : (checkedRoms sat rs).1 with
        | nil => simp
        | cons a as =>
          rw [h] at ih
          intro x hx
          rw [List.dropLast_cons₂, List.mem_cons] at hx
          rcases hx with rfl | hx
          · exact hs
          · exact ih x hx
      · simp [checkedRoms, hz, hs]

theorem checkedRoms_last (sat : Rom → Bool) (roms : List Rom) :
    (checkedRoms sat roms).2 = false
      ↔ ∃ r, (checkedRoms sat roms).1.getLast? = some r ∧ sat r = false := by
  induction roms with
  | nil => simp [checkedRoms]
  | cons r rs ih =>
    by_cases hz : r.Zip = []
    · simpa [checkedRoms, hz] using ih
    · by_cases hs : sat r = true
      · simp only [checkedRoms, hz, hs, if_true, if_false]
        cases h : (checkedRoms sat rs).1 with
        | nil =>
          rw [h] at ih
          simp only [List.getLast?_nil, false_and, exists_false, iff_false] at ih
          simp [ih, hs]
        | cons a as =>
          rw [h] at ih
          rw [List.getLast?_cons_cons]
          exact ih
      · have hs' : sat r = false := by simpa using hs
        simp [checkedRoms, hz, hs']

theorem satisfied_iff (fs : FS) (baseDir : Str) (rom : Rom) :
    satisfied fs baseDir rom = true ↔
      ∃ alt ∈ Split rom.Zip '|',
        fs.stat (Join [baseDir, alt]) ≠ none
          ∨ fs.stat (Join [baseDir, "mame".toList, alt]) ≠ none
          ∨ fs.stat (Join [baseDir, "hbmame".toList, alt]) ≠ none := by
  simp [satisfied, List.any_eq_true, Option.isSome_iff_ne_none, or_assoc]

/-- The entry that `scanMRA` returns once `os.Stat`, the read and the decoding succeed. -/
theorem scanMRA_ok (cfg : Config) (xml : XmlDecoder) (fs : FS) (filename : Str)
    (t : Int) (x : List Nat) (doc : MRAXml)
    (hstat : fs.stat filename = some t) (hread : fs.readFile filename = some x)
    (hxml : xml x = some doc) :
    scanMRA cfg xml fs filename = .ok
      { Path := doc.Path.getD filename
        Filename := doc.Filename.getD (Base filename)
        Ctime := doc.Ctime.getD t
        LogicPath := lpathLoop [] (Split (TrimPrefix (Dir filename) cfg.SdPath) '/')
          ++ doc.LogicPath
        MD5 := doc.MD5.getD (hexString (md5 []))
        Name := doc.Name.getD []
        Rbf := doc.Rbf.getD []
        Roms := (checkedRoms (satisfied fs (Dir filename)) doc.Roms).1
        RomsFound := (checkedRoms (satisfied fs (Dir filename)) doc.Roms).2 } := by
  have h := romsLoop_run fs (Dir filename) doc.Roms
  simp only [scanMRA, hstat, hread, hxml, MRAXml.store, List.nil_append]
  rw [h.1, h.2]
  rfl

/-! ### The matcher on the constructs of the pattern -/

theorem run_cls_cons (p : Char → Bool) (k : Thread → Option (List (Option Str)))
    (pos : Nat) (c : Char) (r : Str) (caps : List (Option Str)) :
    (Regex.cls p).run k ⟨pos, c :: r, caps⟩ = if p c then k ⟨pos + 1, r, caps⟩ else none := rfl

theorem run_cls_some (p : Char → Bool) (k : Thread → Option (List (Option Str)))
    (pos : Nat) (s : Str) (caps v : List (Option Str))
    (h : (Regex.cls p).run k ⟨pos, s, caps⟩ = some v) :
    ∃ c r, s = c :: r ∧ p c = true ∧ k ⟨pos + 1, r, caps⟩ = some v := by
  cases s with
  | nil => simp [Regex.run] at h
  | cons c r =>
    rw [run_cls_cons] at h
    by_cases hp : p c = true
    · rw [if_pos hp] at h
      exact ⟨c, r, rfl, hp, h⟩
    · rw [if_neg hp] at h
      cases h

theorem starRun_greedy (p : Char → Bool) (k : Thread → Option (List (Option Str)))
    (pre rest : Str) (pos : Nat) (caps v : List (Option Str))
    (hpre : ∀ c ∈ pre, p c = true)
    (hk : k ⟨pos + pre.length, rest, caps⟩ = some v)
    (hrest : ∀ c r, rest = c :: r → p c = false) :
    starRun p k (pre ++ rest) pos caps = some v := by
  induction pre generalizing pos with
  | nil =>
    simp only [List.nil_append, List.length_nil, Nat.add_zero] at hk ⊢
    cases rest with
    | nil => simpa [starRun] using hk
    | cons c r => simpa [starRun, hrest c r rfl] using hk
  | cons a as ih =>
    have ha : p a = true := hpre a (List.mem_cons_self _ _)
    have := ih (pos + 1) (fun c hc => hpre c (List.mem_cons_of_mem _ hc))
      (by simpa [Nat.add_assoc, Nat.add_comm 1] using hk)
    simp [starRun, ha, this]

theorem starRun_some (p : Char → Bool) (k : Thread → Option (List (Option Str)))
    (s : Str) (pos : Nat) (caps v : List (Option Str))
    (h : starRun p k s pos caps = some v) :
    ∃ pre rest, s = pre ++ rest ∧ (∀ c ∈ pre, p c = true)
      ∧ k ⟨pos + pre.length, rest, caps⟩ = some v := by
  induction s generalizing pos with
  | nil => exact ⟨[], [], rfl, by simp, by simpa [starRun] using h⟩
  | cons a as ih =>
    by_cases ha : p a = true
    · simp only [starRun, ha, if_true] at h
      cases hrec : starRun p k as (pos + 1) caps with
      | some m =>
        rw [hrec] at h
        obtain ⟨pre, rest, hs, hpre, hk⟩ := ih (pos + 1) (by rw [hrec]; exact h)
        refine ⟨a :: pre, rest, by simp [hs], ?_, ?_⟩
        · intro c hc
          rcases List.mem_cons.mp hc with rfl | hc
          · exact ha
          · exact hpre c hc
        · simpa [Nat.add_assoc, Nat.add_comm 1] using hk
      | none =>
        rw [hrec] at h
        exact ⟨[], a :: as, rfl, by simp, by simpa using h⟩
    · simp only [starRun, ha] at h
      exact ⟨[], a :: as, rfl, by simp, by simpa using h⟩

theorem run_rep (p : Char → Bool) (k : Thread → Option (List (Option Str))) (n : Nat) :
    ∀ (d rest : Str) (pos : Nat) (caps : List (Option Str)),
      d.length = n → (∀ c ∈ d, p c = true) →
      (Regex.rep p n).run k ⟨pos, d ++ rest, caps⟩ = k ⟨pos + n, rest, caps⟩ := by
  induction n with
  | zero =>
    intro d rest pos caps hlen _
    have : d = [] := List.length_eq_zero.mp hlen
    subst this
    rfl
  | succ n ih =>
    intro d rest pos caps hlen hd
    cases d with
    | nil => simp at hlen
    | cons a as =>
      have ha : p a = true := hd a (List.mem_cons_self _ _)
      have := ih as rest (pos + 1) caps (by simpa using hlen)
        (fun c hc => hd c (List.mem_cons_of_mem _ hc))
      simp only [Regex.rep, Regex.run, List.cons_append, ha, if_true]
      rw [this, Nat.add_assoc, Nat.add_comm 1]

theorem run_rep_some (p : Char → Bool) (k : Thread → Option (List (Option Str))) (n : Nat) :
    ∀ (s : Str) (pos : Nat) (caps v : List (Option Str)),
      (Regex.rep p n).run k ⟨pos, s, caps⟩ = some v →
      ∃ d rest, s = d ++ rest ∧ d.length = n ∧ (∀ c ∈ d, p c = true)
        ∧ k ⟨pos + n, rest, caps⟩ = some v := by
  induction n with
  | zero =>
    intro s pos caps v h
    exact ⟨[], s, rfl, rfl, by simp, h⟩
  | succ n ih =>
    intro s pos caps v h
    simp only [Regex.rep, Regex.run] at h
    obtain ⟨c, r, hs, hc, hk⟩ := run_cls_some p _ pos s caps v h
    obtain ⟨d, rest, hr, hlen, hd, hk'⟩ := ih r (pos + 1) caps v hk
    refine ⟨c :: d, rest, by simp [hs, hr], by simp [hlen], ?_, ?_⟩
    · intro x hx
      rcases List.mem_cons.mp hx with rfl | hx
      · exact hc
      · exact hd x hx
    · simpa [Nat.add_assoc, Nat.add_comm 1] using hk'

theorem run_cat (a b : Regex) (k : Thread → Option (List (Option Str))) (t : Thread) :
    (Regex.cat a b).run k t = a.run (b.run k) t := rfl

theorem run_group (i : Nat) (a : Regex) (k : Thread → Option (List (Option Str)))
    (t : Thread) :
    (Regex.group i a).run k t
      = a.run (fun u => k ⟨u.pos, u.rest,
          u.caps.set i (some (t.rest.take (u.pos - t.pos)))⟩) t := rfl

theorem run_star (p : Char → Bool) (k : Thread → Option (List (Option Str)))
    (pos : Nat) (s : Str) (caps : List (Option Str)) :
    (Regex.star p).run k ⟨pos, s, caps⟩ = starRun p k s pos caps := rfl

theorem run_beginText (k : Thread → Option (List (Option Str))) (t : Thread) :
    Regex.beginText.run k t = if t.pos = 0 then k t else none := rfl

theorem run_endText (k : Thread → Option (List (Option Str))) (t : Thread) :
    Regex.endText.run k t = if t.rest = [] then k t else none := rfl

theorem mem_digits (d : Str) (hdd : ∀ x ∈ d, '0' ≤ x ∧ x ≤ '9') :
    ∀ x ∈ d, isDigit x = true := by
  intro x hx
  simpa [isDigit] using hdd x hx

theorem rbf_run_complete (c d s : Str) (hc : c ≠ []) (hcu : '_' ∉ c) (hd : d.length = 8)
    (hdd : ∀ x ∈ d, '0' ≤ x ∧ x ≤ '9') (hs : '.' ∉ s) :
    (Regex.group 0 rbfPattern).run (fun t => some t.caps)
        ⟨0, c ++ '_' :: (d ++ (s ++ ['.', 'r', 'b', 'f'])), [none, none, none]⟩
      = some [some (c ++ '_' :: (d ++ (s ++ ['.', 'r', 'b', 'f']))), some c, some d] := by
  cases c with
  | nil => exact absurd rfl hc
  | cons a c' =>
    have ha : (a != '_') = true := by
      simp only [bne_iff_ne, ne_eq]
      rintro rfl
      exact hcu (List.mem_cons_self _ _)
    have hc' : ∀ x ∈ c', (fun c => c != '_') x = true := by
      intro x hx
      simp only [bne_iff_ne, ne_eq]
      rintro rfl
      exact hcu (List.mem_cons_of_mem _ hx)
    have hs' : ∀ x ∈ s, (fun c => c != '.') x = true := by
      intro x hx
      simp only [bne_iff_ne, ne_eq]
      rintro rfl
      exact hs hx
    rw [rbfPattern, run_group, run_cat, run_beginText, if_pos rfl, run_cat, run_group,
      Regex.plus, run_cat, List.cons_append, run_cls_cons, if_pos ha, run_star]
    apply starRun_greedy _ _ c' _ _ _ _ hc'
    · dsimp only
      rw [run_cat, run_cls_cons, if_pos (by decide), run_cat, run_group,
        run_rep _ _ 8 d _ _ _ hd (mem_digits d hdd)]
      dsimp only
      rw [run_cat, run_star]
      apply starRun_greedy _ _ s _ _ _ _ hs'
      · dsimp only
        rw [run_cat, run_cls_cons, if_pos (by decide), run_cat, run_cls_cons,
          if_pos (by decide), run_cat, run_cls_cons, if_pos (by decide), run_cat,
          run_cls_cons, if_pos (by decide), run_endText, if_pos rfl]
        dsimp only
        have e1 : List.take (0 + 1 + c'.length - 0)
            (a :: (c' ++ '_' :: (d ++ (s ++ ['.', 'r', 'b', 'f'])))) = a :: c' := by
          have : a :: (c' ++ '_' :: (d ++ (s ++ ['.', 'r', 'b', 'f'])))
              = (a :: c') ++ '_' :: (d ++ (s ++ ['.', 'r', 'b', 'f'])) := rfl
          rw [this]
          exact List.take_left' (by simp; omega)
        have e2 : List.take (0 + 1 + c'.length + 1 + 8 - (0 + 1 + c'.length + 1))
            (d ++ (s ++ ['.', 'r', 'b', 'f'])) = d :=
          List.take_left' (by omega)
        have e3 : List.take (0 + 1 + c'.length + 1 + 8 + s.length + 1 + 1 + 1 + 1 - 0)
            (a :: (c' ++ '_' :: (d ++ (s ++ ['.', 'r', 'b', 'f']))))
            = a :: (c' ++ '_' :: (d ++ (s ++ ['.', 'r', 'b', 'f']))) :=
          List.take_of_length_le (by simp; omega)
        rw [e1, e2, e3]
        rfl
      · intro x r hx
        cases hx
        decide
    · intro x r hx
      cases hx
      decide

theorem rbf_run_sound (pos : Nat) (name : Str) (v : List (Option Str))
    (h : (Regex.group 0 rbfPattern).run (fun t => some t.caps) ⟨pos, name, [none, none, none]⟩
      = some v) :
    pos = 0 ∧ ∃ c d s, c ≠ [] ∧ '_' ∉ c ∧ d.length = 8 ∧ (∀ x ∈ d, '0' ≤ x ∧ x ≤ '9')
      ∧ '.' ∉ s ∧ name = c ++ '_' :: (d ++ (s ++ ['.', 'r', 'b', 'f']))
      ∧ v = [some name, some c, some d] := by
  rw [rbfPattern, run_group, run_cat, run_beginText] at h
  by_cases hpos : pos = 0
  swap
  · rw [if_neg hpos] at h
    cases h
  subst hpos
  refine ⟨rfl, ?_⟩
  rw [if_pos rfl, run_cat, run_group, Regex.plus, run_cat] at h
  obtain ⟨a, r, hname, ha, g1⟩ := run_cls_some _ _ _ _ _ _ h
  clear h
  rw [run_star] at g1
  obtain ⟨c', r1, hr, hc', g2⟩ := starRun_some _ _ _ _ _ _ g1
  clear g1
  dsimp only at g2
  rw [run_cat] at g2
  obtain ⟨u, r2, hr1, hu, g3⟩ := run_cls_some _ _ _ _ _ _ g2
  clear g2
  rw [run_cat, run_group] at g3
  obtain ⟨d, r3, hr2, hd, hdd, g4⟩ := run_rep_some _ _ _ _ _ _ _ g3
  clear g3
  dsimp only at g4
  rw [run_cat, run_star] at g4
  obtain ⟨s, r4, hr3, hs, g5⟩ := starRun_some _ _ _ _ _ _ g4
  clear g4
  rw [run_cat] at g5
  obtain ⟨x1, r5, hr4, hx1, g6⟩ := run_cls_some _ _ _ _ _ _ g5
  clear g5
  rw [run_cat] at g6
  obtain ⟨x2, r6, hr5, hx2, g7⟩ := run_cls_some _ _ _ _ _ _ g6
  clear g6
  rw [run_cat] at g7
  obtain ⟨x3, r7, hr6, hx3, g8⟩ := run_cls_some _ _ _ _ _ _ g7
  clear g7
  rw [run_cat] at g8
  obtain ⟨x4, r8, hr7, hx4, h⟩ := run_cls_some _ _ _ _ _ _ g8
  clear g8
  rw [run_endText] at h
  dsimp only at h
  by_cases hr8 : r8 = []
  swap
  · rw [if_neg hr8] at h
    cases h
  rw [if_pos hr8] at h
  have hu' : u = '_' := by simpa using hu
  have h1 : x1 = '.' := by simpa using hx1
  have h2 : x2 = 'r' := by simpa using hx2
  have h3 : x3 = 'b' := by simpa using hx3
  have h4 : x4 = 'f' := by simpa using hx4
  subst hu' h1 h2 h3 h4 hr8 hr7 hr6 hr5 hr4 hr3 hr2 hr1 hr hname
  refine ⟨a :: c', d, s, by simp, ?_, hd, ?_, ?_, by simp, ?_⟩
  · intro hmem
    rcases List.mem_cons.mp hmem with e | e
    · rw [← e] at ha
      simp at ha
    · have := hc' _ e
      simp at this
  · intro x hx
    have := hdd x hx
    simpa [isDigit] using this
  · intro hmem
    have := hs _ hmem
    simp at this
  · have e1 : List.take (0 + 1 + c'.length - 0)
        (a :: (c' ++ '_' :: (d ++ (s ++ ['.', 'r', 'b', 'f'])))) = a :: c' := by
      have : a :: (c' ++ '_' :: (d ++ (s ++ ['.', 'r', 'b', 'f'])))
          = (a :: c') ++ '_' :: (d ++ (s ++ ['.', 'r', 'b', 'f'])) := rfl
      rw [this]
      exact List.take_left' (by simp; omega)
    have e2 : List.take (0 + 1 + c'.length + 1 + 8 - (0 + 1 + c'.length + 1))
        (d ++ (s ++ ['.', 'r', 'b', 'f'])) = d :=
      List.take_left' (by omega)
    have e3 : List.take (0 + 1 + c'.length + 1 + 8 + s.length + 1 + 1 + 1 + 1 - 0)
        (a :: (c' ++ '_' :: (d ++ (s ++ ['.', 'r', 'b', 'f']))))
        = a :: (c' ++ '_' :: (d ++ (s ++ ['.', 'r', 'b', 'f']))) :=
      List.take_of_length_le (by simp; omega)
    rw [e1, e2, e3] at h
    simpa using h.symm

theorem findFrom_rbf_later (s : Str) : ∀ pos, pos ≠ 0 → findFrom rbfPattern 2 pos s = none := by
  induction s with
  | nil =>
    intro pos hpos
    simp only [findFrom]
    rw [rbfPattern, run_group, run_cat, run_beginText, if_neg hpos]
  | cons c r ih =>
    intro pos hpos
    simp only [findFrom]
    rw [rbfPattern, run_group, run_cat, run_beginText, if_neg hpos]
    exact ih (pos + 1) (by omega)

theorem findFrom_rbf (name : Str) :
    findFrom rbfPattern 2 0 name
      = (Regex.group 0 rbfPattern).run (fun t => some t.caps) ⟨0, name, [none, none, none]⟩ := by
  cases name with
  | nil => rfl
  | cons c r =>
    simp only [findFrom]
    rw [findFrom_rbf_later r 1 (by omega)]
    show (match (Regex.group 0 rbfPattern).run (fun t => some t.caps)
      ⟨0, c :: r, [none, none, none]⟩ with
      | some m => some m
      | none => none) = _
    cases (Regex.group 0 rbfPattern).run (fun t => some t.caps) ⟨0, c :: r, [none, none, none]⟩ <;> rfl

theorem DatedName.assoc {name c d s : Str} (h : DatedName name c d s) :
    name = c ++ '_' :: (d ++ (s ++ ['.', 'r', 'b', 'f'])) := by
  rw [h.1]
  simp [List.append_assoc]

/-- The match of the pattern on a name that has the dated form. -/
theorem find_rbf_of_dated (name c d s : Str) (h : DatedName name c d s) :
    FindStringSubmatch rbfPattern 2 name = some [name, c, d] := by
  obtain ⟨-, hc, hcu, hd, hdd, hs⟩ := id h
  rw [FindStringSubmatch, findFrom_rbf, h.assoc, rbf_run_complete c d s hc hcu hd hdd hs]
  rfl

/-- A match of the pattern shows that the name has the dated form. -/
theorem dated_of_find_rbf (name : Str) (ms : List Str)
    (h : FindStringSubmatch rbfPattern 2 name = some ms) :
    ∃ c d s, DatedName name c d s ∧ ms = [name, c, d] := by
  rw [FindStringSubmatch, findFrom_rbf] at h
  cases hrun : (Regex.group 0 rbfPattern).run (fun t => some t.caps)
      ⟨0, name, [none, none, none]⟩ with
  | none => rw [hrun] at h; cases h
  | some v =>
    rw [hrun] at h
    obtain ⟨-, c, d, s, hc, hcu, hd, hdd, hs, hname, hv⟩ := rbf_run_sound 0 name v hrun
    refine ⟨c, d, s, ⟨?_, hc, hcu, hd, hdd, hs⟩, ?_⟩
    · rw [hname]; simp [List.append_assoc]
    · subst hv
      simpa using h.symm

theorem scanRBF_ok (cfg : Config) (fs : FS) (filename : Str) (t : Int) (content : List Nat)
    (hstat : fs.stat filename = some t) (hread : fs.readFile filename = some content) :
    scanRBF cfg fs filename = .ok
      { Path := filename
        Filename := Base filename
        Codename := (parseName (Base filename)).1
        Codedate := (parseName (Base filename)).2
        Ctime := t
        LogicPath := lpathLoop [] (Split (TrimPrefix (Dir filename) cfg.SdPath) '/')
        MD5 := hexString (md5 content) } := by
  simp only [scanRBF, hstat, hread]
  rfl

theorem scanRBF_error (cfg : Config) (fs : FS) (filename : Str) (err : ScanError)
    (h : scanRBF cfg fs filename = .error err) :
    fs.stat filename = none ∨ fs.readFile filename = none := by
  cases hs : fs.stat filename with
  | none => exact Or.inl rfl
  | some t =>
    cases hr : fs.readFile filename with
    | none => exact Or.inr rfl
    | some content =>
      rw [scanRBF_ok cfg fs filename t content hs hr] at h
      cases h

theorem parseName_dated (name c d s : Str) (h : DatedName name c d s) :
    parseName name = (c, d) := by
  simp [parseName, find_rbf_of_dated name c d s h]

theorem parseName_other (name : Str) (h : ¬ ∃ c d s, DatedName name c d s) :
    parseName name = ([], []) := by
  cases hf : FindStringSubmatch rbfPattern 2 name with
  | none => simp [parseName, hf]
  | some ms =>
    obtain ⟨c, d, s, hd, -⟩ := dated_of_find_rbf name ms hf
    exact absurd ⟨c, d, s, hd⟩ h

theorem DatedName.unique {name c d s c' d' s' : Str} (h : DatedName name c d s)
    (h' : DatedName name c' d' s') : c = c' ∧ d = d' ∧ s = s' := by
  have e := (parseName_dated name c d s h).symm.trans (parseName_dated name c' d' s' h')
  obtain ⟨rfl, rfl⟩ := Prod.mk.inj e
  refine ⟨rfl, rfl, ?_⟩
  have e2 := h.assoc.symm.trans h'.assoc
  have e3 := List.append_cancel_left e2
  have e4 := List.append_cancel_left (List.cons.inj e3).2
  exact List.append_cancel_right e4

theorem DatedName.codename {name c d s : Str} (h : DatedName name c d s) :
    c = name.takeWhile (fun x => x != '_') := by
  obtain ⟨-, -, hcu, -, -, -⟩ := id h
  rw [h.assoc]
  have hall : ∀ x ∈ c, (fun x => x != '_') x = true := by
    intro x hx
    simp only [bne_iff_ne, ne_eq]
    rintro rfl
    exact hcu hx
  rw [List.takeWhile_append_of_pos hall]
  simp [List.takeWhile_cons]

theorem DatedName.codedate {name c d s : Str} (h : DatedName name c d s) :
    d <+: (name.dropWhile (fun x => x != '_')).drop 1 := by
  obtain ⟨-, -, hcu, -, -, -⟩ := id h
  rw [h.assoc]
  have hall : ∀ x ∈ c, (fun x => x != '_') x = true := by
    intro x hx
    simp only [bne_iff_ne, ne_eq]
    rintro rfl
    exact hcu hx
  rw [List.dropWhile_append_of_pos hall]
  simp [List.dropWhile_cons]

theorem rbf_ne_mra : ".rbf".toList ≠ ".mra".toList := by decide

theorem walkCallback_eq (scanR : Str → Except ScanError RBF)
    (scanM : Str → Except ScanError MRA) (st : Cores × List Event) (p : Str) :
    walkCallback scanR scanM st p =
      ({ RBFs := st.1.RBFs ++ collectRBF scanR [p], MRAs := st.1.MRAs ++ collectMRA scanM [p] },
        st.2 ++ scanEvents [p]) := by
  obtain ⟨⟨rs, ms⟩, tr⟩ := st
  by_cases h1 : ToLower (Ext p) = ['.', 'r', 'b', 'f']
  · have h2 : ToLower (Ext p) ≠ ['.', 'm', 'r', 'a'] := by rw [h1]; decide
    cases hr : scanR p <;>
      simp [walkCallback, collectRBF, collectMRA, scanEvents, h1, hr, Except.toOption]
  · by_cases h2 : ToLower (Ext p) = ['.', 'm', 'r', 'a']
    · cases hm : scanM p <;>
        simp [walkCallback, collectRBF, collectMRA, scanEvents, h2, hm, Except.toOption]
    · simp [walkCallback, collectRBF, collectMRA, scanEvents, h1, h2]

theorem walkCallback_foldl (scanR : Str → Except ScanError RBF)
    (scanM : Str → Except ScanError MRA) (visited : List Str) :
    ∀ st : Cores × List Event,
      visited.foldl (walkCallback scanR scanM) st =
        ({ RBFs := st.1.RBFs ++ collectRBF scanR visited,
           MRAs := st.1.MRAs ++ collectMRA scanM visited },
          st.2 ++ scanEvents visited) := by
  induction visited with
  | nil => intro st; simp [collectRBF, collectMRA, scanEvents]
  | cons p ps ih =>
    intro st
    rw [List.foldl_cons, ih, walkCallback_eq]
    have e1 : collectRBF scanR (p :: ps) = collectRBF scanR [p] ++ collectRBF scanR ps :=
      List.filterMap_append [p] ps _
    have e2 : collectMRA scanM (p :: ps) = collectMRA scanM [p] ++ collectMRA scanM ps :=
      List.filterMap_append [p] ps _
    have e3 : scanEvents (p :: ps) = scanEvents [p] ++ scanEvents ps :=
      List.filterMap_append [p] ps _
    rw [e1, e2, e3]
    simp only [List.append_assoc]


theorem walkerPass_eq (cfg : Config) (scanR : Str → Except ScanError RBF)
    (scanM : Str → Except ScanError MRA) (fs : FS) (trace : List Event) :
    walkerPass cfg scanR scanM fs trace =
      ({ RBFs := collectRBF scanR ((fs.glob (Join [cfg.SdPath, "_*".toList])).flatMap fs.walk),
         MRAs := collectMRA scanM ((fs.glob (Join [cfg.SdPath, "_*".toList])).flatMap fs.walk) },
        trace ++ Event.glob (Join [cfg.SdPath, "_*".toList]) ::
          (fs.glob (Join [cfg.SdPath, "_*".toList])).flatMap
            (fun root => Event.walk root :: scanEvents (fs.walk root))) := by
  have key : ∀ (roots : List Str) (st : Cores × List Event),
      roots.foldl (fun st root =>
          (fs.walk root).foldl (walkCallback scanR scanM) (st.1, st.2 ++ [Event.walk root])) st
        = ({ RBFs := st.1.RBFs ++ collectRBF scanR (roots.flatMap fs.walk),
             MRAs := st.1.MRAs ++ collectMRA scanM (roots.flatMap fs.walk) },
            st.2 ++ roots.flatMap (fun root => Event.walk root :: scanEvents (fs.walk root))) := by
    intro roots
    induction roots with
    | nil => intro st; simp [collectRBF, collectMRA]
    | cons r rs ih =>
      intro st
      rw [List.foldl_cons, ih, walkCallback_foldl]
      simp [collectRBF, collectMRA, List.filterMap_append, List.append_assoc]
  simp only [walkerPass]
  rw [key]
  simp

/-! ## The logical path -/

/-- The logical path of an entry of `scanRBF` is the reference list of the
specification, for every path and every storage root. -/
theorem scanRBF_LogicPath (cfg : Config) (fs : FS) (filename : Str) (e : RBF)
    (h : scanRBF cfg fs filename = .ok e) :
    e.LogicPath = logicPathRef cfg.SdPath filename := by
  cases hs : fs.stat filename with
  | none => simp [scanRBF, hs] at h
  | some t =>
    cases hr : fs.readFile filename with
    | none => simp [scanRBF, hs, hr] at h
    | some content =>
      rw [scanRBF_ok cfg fs filename t content hs hr] at h
      cases h
      simp only [logicPathRef, lpathLoop_eq, TrimPrefix_eq, List.nil_append]

/-- The logical path of an entry of `scanMRA` is the reference list of the
specification followed by the texts of the elements named `LogicPath` that the decoder
found in the document. -/
theorem scanMRA_LogicPath (cfg : Config) (xml : XmlDecoder) (fs : FS) (filename : Str)
    (t : Int) (x : List Nat) (doc : MRAXml)
    (hstat : fs.stat filename = some t) (hread : fs.readFile filename = some x)
    (hxml : xml x = some doc) :
    ∃ c, scanMRA cfg xml fs filename = .ok c
      ∧ c.LogicPath = logicPathRef cfg.SdPath filename ++ doc.LogicPath := by
  refine ⟨_, scanMRA_ok cfg xml fs filename t x doc hstat hread hxml, ?_⟩
  simp only [logicPathRef, lpathLoop_eq, TrimPrefix_eq, List.nil_append]

/-- Claim C1, evaluated at an input where it fails: for the storage root `/sd` and the
definition `/sd/_Arcade/inject.mra`, whose document has an element `LogicPath` with the
text `Extra`, the entry of `scanMRA` has the logical path `Arcade`, `Extra`, while the
reference list of the specification is `Arcade` alone. On the example of the
specification, `/sd/_Arcade/_Console/game.mra`, both are `Arcade`, `Console`. -/
theorem scanMRA_LogicPath_injected :
    (scanMRA sampleConfig sampleXml sampleFS injectPath).toOption.map (fun c => c.LogicPath)
        = some ["Arcade".toList, "Extra".toList]
      ∧ logicPathRef sampleConfig.SdPath injectPath = ["Arcade".toList]
      ∧ (scanMRA sampleConfig sampleXml sampleFS gamePath).toOption.map (fun c => c.LogicPath)
        = some ["Arcade".toList, "Console".toList]
      ∧ logicPathRef sampleConfig.SdPath gamePath = ["Arcade".toList, "Console".toList] := by
  decide

/-! ## The dependency records -/

/-- Claim C2: when `os.Stat`, the read and the XML decoding succeed, `scanMRA` returns an
entry whose `RomsFound` is true if and only if every decoded record with a non-empty zip
string has an alternative, among those separated by bars, that exists under the directory
of the definition, under its `mame` or under its `hbmame` subdirectory. Records with an
empty zip string do not count: if there are no others, `RomsFound` is true. -/
theorem scanMRA_RomsFound_iff (cfg : Config) (xml : XmlDecoder) (fs : FS) (filename : Str)
    (t : Int) (x : List Nat) (doc : MRAXml)
    (hstat : fs.stat filename = some t) (hread : fs.readFile filename = some x)
    (hxml : xml x = some doc) :
    ∃ c, scanMRA cfg xml fs filename = .ok c ∧
      (c.RomsFound = true ↔
        ∀ r ∈ doc.Roms, r.Zip ≠ [] →
          ∃ alt ∈ Split r.Zip '|',
            fs.stat (Join [Dir filename, alt]) ≠ none
              ∨ fs.stat (Join [Dir filename, "mame".toList, alt]) ≠ none
              ∨ fs.stat (Join [Dir filename, "hbmame".toList, alt]) ≠ none) ∧
      ((∀ r ∈ doc.Roms, r.Zip = []) → c.RomsFound = true) := by
  refine ⟨_, scanMRA_ok cfg xml fs filename t x doc hstat hread hxml, ?_, ?_⟩
  · show (checkedRoms (satisfied fs (Dir filename)) doc.Roms).2 = true ↔ _
    rw [checkedRoms_found]
    constructor
    · intro h r hr hz
      exact (satisfied_iff fs (Dir filename) r).mp (h r hr hz)
    · intro h r hr hz
      exact (satisfied_iff fs (Dir filename) r).mpr (h r hr hz)
  · intro h
    show (checkedRoms (satisfied fs (Dir filename)) doc.Roms).2 = true
    rw [checkedRoms_found]
    intro r hr hz
    exact absurd (h r hr) hz

/-- Claim C2 on the example of the specification: `rom2.zip` is present in the `mame`
subdirectory, so the record `rom1.zip|rom2.zip` is satisfied and `RomsFound` is true. -/
theorem scanMRA_RomsFound_iff_witness :
    sampleFS.stat gamePath = some 1623715200
      ∧ sampleFS.readFile gamePath = some (asciiBytes gameText)
      ∧ ∃ c, scanMRA sampleConfig sampleXml sampleFS gamePath = .ok c ∧ c.RomsFound = true := by
  refine ⟨by decide, by decide, ?_⟩
  obtain ⟨c, hc, hiff, -⟩ := scanMRA_RomsFound_iff sampleConfig sampleXml sampleFS gamePath
    1623715200 (asciiBytes gameText)
    { plainDoc "Game".toList [⟨"rom1.zip|rom2.zip".toList⟩] with Rbf := some "core".toList }
    (by decide) (by decide) (by decide)
  refine ⟨c, hc, hiff.mpr ?_⟩
  intro r hr _
  have hr' : r = ⟨"rom1.zip|rom2.zip".toList⟩ := by simpa [plainDoc] using hr
  subst hr'
  exact ⟨"rom2.zip".toList, by decide, Or.inr (Or.inl (by decide))⟩

/-- Claim C10: when `os.Stat`, the read and the XML decoding succeed, the list `Roms`
that `scanMRA` stores holds no record with an empty zip string and is, in source order,
the non-empty records up to and including the first unsatisfied one (all of them when
every one is satisfied); every stored record but possibly the last is satisfied, and
`RomsFound` is false exactly when the last stored record exists and is unsatisfied. -/
theorem scanMRA_Roms_checked (cfg : Config) (xml : XmlDecoder) (fs : FS) (filename : Str)
    (t : Int) (x : List Nat) (doc : MRAXml)
    (hstat : fs.stat filename = some t) (hread : fs.readFile filename = some x)
    (hxml : xml x = some doc) :
    ∃ c, scanMRA cfg xml fs filename = .ok c ∧
      c.Roms = (doc.Roms.filter (fun r => decide (r.Zip ≠ []))).takeWhile
            (satisfied fs (Dir filename))
          ++ ((doc.Roms.filter (fun r => decide (r.Zip ≠ []))).dropWhile
            (satisfied fs (Dir filename))).take 1 ∧
      ((∀ r ∈ doc.Roms, r.Zip ≠ [] → satisfied fs (Dir filename) r = true) →
        c.Roms = doc.Roms.filter (fun r => decide (r.Zip ≠ []))) ∧
      (∀ r ∈ c.Roms, r.Zip ≠ []) ∧
      (∀ r ∈ c.Roms.dropLast, satisfied fs (Dir filename) r = true) ∧
      (c.RomsFound = false ↔
        ∃ r, c.Roms.getLast? = some r ∧ satisfied fs (Dir filename) r = false) := by
  refine ⟨_, scanMRA_ok cfg xml fs filename t x doc hstat hread hxml, ?_, ?_, ?_, ?_, ?_⟩
  · exact checkedRoms_stored _ _
  · intro h
    show (checkedRoms (satisfied fs (Dir filename)) doc.Roms).1 = _
    rw [checkedRoms_stored]
    have hall : ∀ r ∈ doc.Roms.filter (fun r => decide (r.Zip ≠ [])),
        satisfied fs (Dir filename) r = true := by
      intro r hr
      rw [List.mem_filter] at hr
      exact h r hr.1 (by simpa using hr.2)
    rw [List.takeWhile_eq_self_iff.mpr hall, List.dropWhile_eq_nil_iff.mpr hall]
    simp
  · exact checkedRoms_nonempty _ _
  · exact checkedRoms_dropLast _ _
  · exact checkedRoms_last _ _

/-- Claim C10 on a definition with the records (empty), `a.zip` (missing) and `b.zip`
(present): the stored list is `a.zip` alone and `RomsFound` is false. -/
theorem scanMRA_Roms_checked_witness :
    sampleFS.stat lackingPath = some 1623715200
      ∧ sampleFS.readFile lackingPath = some (asciiBytes lackingText)
      ∧ ∃ c, scanMRA sampleConfig sampleXml sampleFS lackingPath = .ok c
        ∧ c.Roms = [⟨"a.zip".toList⟩] ∧ (∀ r ∈ c.Roms, r.Zip ≠ []) := by
  refine ⟨by decide, by decide, ?_⟩
  obtain ⟨c, hc, hroms, -, hne, -, -⟩ := scanMRA_Roms_checked sampleConfig sampleXml sampleFS
    lackingPath 1623715200 (asciiBytes lackingText)
    (plainDoc "Lacking".toList [⟨[]⟩, ⟨"a.zip".toList⟩, ⟨"b.zip".toList⟩])
    (by decide) (by decide) (by decide)
  refine ⟨c, hc, ?_, hne⟩
  rw [hroms]
  decide

/-- Claim C5, evaluated at an input where it fails: the definition
`/sd/_Arcade/lacking.mra` has the records (empty), `a.zip` and `b.zip`, and `a.zip` is
missing. The list that `scanMRA` stores is `a.zip` alone, with `RomsFound` false, while
the records with a non-empty zip string are `a.zip` and `b.zip`. -/
theorem scanMRA_Roms_truncated :
    (scanMRA sampleConfig sampleXml sampleFS lackingPath).toOption.map
        (fun c => (c.Roms, c.RomsFound)) = some ([⟨"a.zip".toList⟩], false)
      ∧ sampleXml (asciiBytes lackingText)
        = some (plainDoc "Lacking".toList [⟨[]⟩, ⟨"a.zip".toList⟩, ⟨"b.zip".toList⟩])
      ∧ [(⟨[]⟩ : Rom), ⟨"a.zip".toList⟩, ⟨"b.zip".toList⟩].filter (fun r => decide (r.Zip ≠ []))
        = [⟨"a.zip".toList⟩, ⟨"b.zip".toList⟩] := by
  decide

set_option maxRecDepth 8000

/-! ## The content digest -/

/-- The digest of an entry of `scanRBF` is the hexadecimal MD5 of the content read. -/
theorem scanRBF_MD5 (cfg : Config) (fs : FS) (filename : Str) (t : Int) (content : List Nat)
    (hstat : fs.stat filename = some t) (hread : fs.readFile filename = some content) :
    ∃ e, scanRBF cfg fs filename = .ok e ∧ e.MD5 = hexString (md5 content) :=
  ⟨_, scanRBF_ok cfg fs filename t content hstat hread, rfl⟩

/-- The digest of an entry of `scanMRA` does not depend on the content read: it is the
hexadecimal MD5 of the empty input, unless the document has an element named `MD5`. -/
theorem scanMRA_MD5 (cfg : Config) (xml : XmlDecoder) (fs : FS) (filename : Str)
    (t : Int) (x : List Nat) (doc : MRAXml)
    (hstat : fs.stat filename = some t) (hread : fs.readFile filename = some x)
    (hxml : xml x = some doc) :
    ∃ c, scanMRA cfg xml fs filename = .ok c
      ∧ c.MD5 = doc.MD5.getD "d41d8cd98f00b204e9800998ecf8427e".toList := by
  refine ⟨_, scanMRA_ok cfg xml fs filename t x doc hstat hread hxml, ?_⟩
  have : hexString (md5 []) = "d41d8cd98f00b204e9800998ecf8427e".toList := by decide
  simp only [this]

/-- Claim C4, evaluated at an input where it fails: the definition
`/sd/_Arcade/_Console/game.mra` gets from `scanMRA` the digest
`d41d8cd98f00b204e9800998ecf8427e`, which is the MD5 of the empty input, although the
MD5 of its content is `d934c35d54387f24abd474fb7c06dd24`. The logic image
`/sd/_Console/NeoGeo_20210615_v2.rbf` gets from `scanRBF` the MD5 of its content,
`aba877053c219055f676e01e4f5236de`. -/
theorem scanMRA_MD5_of_empty :
    (scanMRA sampleConfig sampleXml sampleFS gamePath).toOption.map (fun c => c.MD5)
        = some "d41d8cd98f00b204e9800998ecf8427e".toList
      ∧ sampleFS.readFile gamePath = some (asciiBytes gameText)
      ∧ hexString (md5 (asciiBytes gameText)) = "d934c35d54387f24abd474fb7c06dd24".toList
      ∧ hexString (md5 []) = "d41d8cd98f00b204e9800998ecf8427e".toList
      ∧ (scanRBF sampleConfig sampleFS neoPath).toOption.map (fun c => c.MD5)
        = some "aba877053c219055f676e01e4f5236de".toList
      ∧ hexString (md5 coreBytes) = "aba877053c219055f676e01e4f5236de".toList := by
  refine ⟨?_, ?_, ?_, ?_, ?_, ?_⟩ <;> decide

/-! ## The file name of a logic image -/

/-- Claim C3: `scanRBF` fails only when `os.Stat` or the read fails, never because of
the file name. When both succeed it returns an entry such that: if the file name is
`c`, an underscore, `d`, `s` and `.rbf` with `c` non-empty and free of underscores, `d`
eight ASCII digits and `s` free of dots, then `Codename` is `c` and `Codedate` is `d`;
for every other file name both are empty. Such a decomposition of a name is unique. -/
theorem scanRBF_Codename_Codedate (cfg : Config) (fs : FS) (filename : Str) :
    (∀ err, scanRBF cfg fs filename = .error err →
        fs.stat filename = none ∨ fs.readFile filename = none) ∧
    (∀ t content, fs.stat filename = some t → fs.readFile filename = some content →
      ∃ e, scanRBF cfg fs filename = .ok e ∧ e.Filename = Base filename ∧
        (∀ c d s, DatedName e.Filename c d s → e.Codename = c ∧ e.Codedate = d) ∧
        ((¬ ∃ c d s, DatedName e.Filename c d s) → e.Codename = [] ∧ e.Codedate = [])) ∧
    (∀ name c d s c' d' s', DatedName name c d s → DatedName name c' d' s' →
      c = c' ∧ d = d' ∧ s = s') := by
  refine ⟨fun err h => scanRBF_error cfg fs filename err h, ?_, ?_⟩
  · intro t content hstat hread
    refine ⟨_, scanRBF_ok cfg fs filename t content hstat hread, rfl, ?_, ?_⟩
    · intro c d s h
      show (parseName (Base filename)).1 = c ∧ (parseName (Base filename)).2 = d
      rw [parseName_dated _ c d s h]
      exact ⟨rfl, rfl⟩
    · intro h
      show (parseName (Base filename)).1 = [] ∧ (parseName (Base filename)).2 = []
      rw [parseName_other _ h]
      exact ⟨rfl, rfl⟩
  · intro name c d s c' d' s' h h'
    exact h.unique h'

/-- Claim C3 on the example of the specification: `NeoGeo_20210615_v2.rbf` gives the
codename `NeoGeo` and the date `20210615`. -/
theorem scanRBF_Codename_Codedate_witness :
    sampleFS.stat neoPath = some 1623715200 ∧ sampleFS.readFile neoPath = some coreBytes
      ∧ Base neoPath = "NeoGeo_20210615_v2.rbf".toList
      ∧ ∃ e, scanRBF sampleConfig sampleFS neoPath = .ok e
        ∧ e.Codename = "NeoGeo".toList ∧ e.Codedate = "20210615".toList := by
  refine ⟨by decide, by decide, by decide, ?_⟩
  obtain ⟨e, he, hname, hdated, -⟩ :=
    (scanRBF_Codename_Codedate sampleConfig sampleFS neoPath).2.1 1623715200 coreBytes
      (by decide) (by decide)
  have hd : DatedName e.Filename "NeoGeo".toList "20210615".toList "_v2".toList := by
    rw [hname]
    unfold DatedName
    decide
  exact ⟨e, he, hdated _ _ _ hd⟩

/-- Claim C8, as stated, fails: the walker classifies `Neo_Geo_20210615.rbf` and
`NeoGeo_20210615.RBF` as logic images, and `scanRBF` leaves `Codename` and `Codedate`
of both empty instead of setting them to `Neo_Geo`, or `NeoGeo`, and `20210615`. -/
theorem scanRBF_Codename_counterexample :
    ToLower (Ext neoUnderscorePath) = ".rbf".toList
      ∧ (scanRBF sampleConfig sampleFS neoUnderscorePath).toOption.map
          (fun e => (e.Codename, e.Codedate)) = some ([], [])
      ∧ (scanRBF sampleConfig sampleFS neoUnderscorePath).toOption.map
          (fun e => (e.Codename, e.Codedate)) ≠ some ("Neo_Geo".toList, "20210615".toList)
      ∧ ToLower (Ext neoUpperPath) = ".rbf".toList
      ∧ (scanRBF sampleConfig sampleFS neoUpperPath).toOption.map
          (fun e => (e.Codename, e.Codedate)) = some ([], [])
      ∧ (scanRBF sampleConfig sampleFS neoUpperPath).toOption.map
          (fun e => (e.Codename, e.Codedate)) ≠ some ("NeoGeo".toList, "20210615".toList) := by
  decide

/-- Claim C8 as amended: let the walker visit a path whose extension lower-cases to
`.rbf`, and let `os.Stat` and the read succeed. The callback then appends the entry of
`scanRBF`, and in that entry: if the file name is `c`, an underscore, `d`, `s` and `.rbf`
in lower case, with `c` non-empty and free of underscores, `d` eight ASCII digits and `s`
free of dots, then `Codename` is `c`, which is everything before the first underscore of
the name, and `Codedate` is `d`, the eight characters after that underscore; if the
first underscore of the name is not directly followed by eight ASCII digits (as when
the codename itself contains an underscore), `Codename` and `Codedate` are empty. -/
theorem walkCallback_rbf_Codename (cfg : Config) (fs : FS)
    (scanM : Str → Except ScanError MRA) (st : Cores × List Event) (p : Str)
    (t : Int) (content : List Nat) (hext : ToLower (Ext p) = ".rbf".toList)
    (hstat : fs.stat p = some t) (hread : fs.readFile p = some content) :
    ∃ e, scanRBF cfg fs p = .ok e ∧
      walkCallback (scanRBF cfg fs) scanM st p
        = ({ st.1 with RBFs := st.1.RBFs ++ [e] }, st.2 ++ [Event.scanRBF p]) ∧
      (∀ c d s, DatedName (Base p) c d s →
        e.Codename = c ∧ e.Codename = (Base p).takeWhile (fun x => x != '_') ∧
        e.Codedate = d ∧ e.Codedate <+: ((Base p).dropWhile (fun x => x != '_')).drop 1) ∧
      ((¬ ∃ d : Str, d.length = 8 ∧ (∀ x ∈ d, '0' ≤ x ∧ x ≤ '9')
          ∧ d <+: ((Base p).dropWhile (fun x => x != '_')).drop 1) →
        e.Codename = [] ∧ e.Codedate = []) := by
  refine ⟨_, scanRBF_ok cfg fs p t content hstat hread, ?_, ?_, ?_⟩
  · simp only [walkCallback, hext, if_true, scanRBF_ok cfg fs p t content hstat hread]
  · intro c d s h
    show (parseName (Base p)).1 = c ∧ (parseName (Base p)).1 = _
      ∧ (parseName (Base p)).2 = d ∧ (parseName (Base p)).2 <+: _
    rw [parseName_dated _ c d s h]
    exact ⟨rfl, h.codename, rfl, h.codedate⟩
  · intro h
    show (parseName (Base p)).1 = [] ∧ (parseName (Base p)).2 = []
    rw [parseName_other]
    · exact ⟨rfl, rfl⟩
    · rintro ⟨c, d, s, hd⟩
      exact h ⟨d, hd.2.2.2.1, hd.2.2.2.2.1, hd.codedate⟩

/-- Claim C8 as amended, on `NeoGeo_20210615_v2.rbf`, which gives `NeoGeo` and
`20210615`, and on `Neo_Geo_20210615.rbf`, which gives empty fields. -/
theorem walkCallback_rbf_Codename_witness :
    (ToLower (Ext neoPath) = ".rbf".toList ∧ sampleFS.stat neoPath = some 1623715200
      ∧ sampleFS.readFile neoPath = some coreBytes
      ∧ ∃ e, scanRBF sampleConfig sampleFS neoPath = .ok e
        ∧ e.Codename = "NeoGeo".toList ∧ e.Codedate = "20210615".toList)
    ∧ (ToLower (Ext neoUnderscorePath) = ".rbf".toList
      ∧ sampleFS.stat neoUnderscorePath = some 1623715200
      ∧ sampleFS.readFile neoUnderscorePath = some coreBytes
      ∧ ∃ e, scanRBF sampleConfig sampleFS neoUnderscorePath = .ok e
        ∧ e.Codename = [] ∧ e.Codedate = []) := by
  refine ⟨⟨by decide, by decide, by decide, ?_⟩, ⟨by decide, by decide, by decide, ?_⟩⟩
  · obtain ⟨e, he, -, hdated, -⟩ := walkCallback_rbf_Codename sampleConfig sampleFS
      (scanMRA sampleConfig sampleXml sampleFS) (⟨[], []⟩, []) neoPath 1623715200 coreBytes
      (by decide) (by decide) (by decide)
    have hd : DatedName (Base neoPath) "NeoGeo".toList "20210615".toList "_v2".toList := by
      unfold DatedName
      decide
    exact ⟨e, he, (hdated _ _ _ hd).1, (hdated _ _ _ hd).2.2.1⟩
  · obtain ⟨e, he, -, -, hother⟩ := walkCallback_rbf_Codename sampleConfig sampleFS
      (scanMRA sampleConfig sampleXml sampleFS) (⟨[], []⟩, []) neoUnderscorePath 1623715200
      coreBytes (by decide) (by decide) (by decide)
    refine ⟨e, he, hother ?_⟩
    rintro ⟨d, hlen, hdig, hpre⟩
    have h8 : d = "Geo_2021".toList := by
      have e1 : ((Base neoUnderscorePath).dropWhile (fun x => x != '_')).drop 1
          = "Geo_20210615.rbf".toList := by decide
      rw [e1] at hpre
      have := List.prefix_iff_eq_take.mp hpre
      rw [hlen] at this
      rw [this]
      decide
    subst h8
    have := hdig 'G' (by decide)
    exact absurd this (by decide)

/-! ## The walker and the index -/

/-- Claim C7: whatever the per-file scans answer and whatever sequence of paths the
walker visits, the callback collects in `RBFs` exactly the results of the successful
scans of the visited paths whose extension lower-cases to `.rbf`, in visitation order,
and in `MRAs` exactly the results of the successful scans of the paths whose extension
lower-cases to `.mra`; paths with another extension and failed scans add nothing and
the later paths are still processed. The same holds of a whole walker pass, where the
visited paths are those of the category roots in turn; and an arcade entry whose
`RomsFound` is false is in the list like any other. -/
theorem walker_collects (scanR : Str → Except ScanError RBF)
    (scanM : Str → Except ScanError MRA) :
    (∀ (visited : List Str) (st : Cores × List Event),
      (visited.foldl (walkCallback scanR scanM) st).1.RBFs
          = st.1.RBFs ++ visited.filterMap (fun p =>
              if ToLower (Ext p) = ".rbf".toList then (scanR p).toOption else none)
        ∧ (visited.foldl (walkCallback scanR scanM) st).1.MRAs
          = st.1.MRAs ++ visited.filterMap (fun p =>
              if ToLower (Ext p) = ".mra".toList then (scanM p).toOption else none)) ∧
    (∀ (cfg : Config) (fs : FS) (trace : List Event),
      (walkerPass cfg scanR scanM fs trace).1
        = { RBFs := collectRBF scanR
              ((fs.glob (Join [cfg.SdPath, "_*".toList])).flatMap fs.walk),
            MRAs := collectMRA scanM
              ((fs.glob (Join [cfg.SdPath, "_*".toList])).flatMap fs.walk) }) ∧
    (∀ (cfg : Config) (fs : FS) (trace : List Event) (p : Str) (c : MRA),
      p ∈ (fs.glob (Join [cfg.SdPath, "_*".toList])).flatMap fs.walk →
      ToLower (Ext p) = ".mra".toList → scanM p = .ok c → c.RomsFound = false →
      c ∈ (walkerPass cfg scanR scanM fs trace).1.MRAs) := by
  refine ⟨?_, ?_, ?_⟩
  · intro visited st
    rw [walkCallback_foldl]
    exact ⟨rfl, rfl⟩
  · intro cfg fs trace
    rw [walkerPass_eq]
  · intro cfg fs trace p c hp hext hscan _
    rw [walkerPass_eq]
    show c ∈ collectMRA scanM _
    unfold collectMRA
    rw [List.mem_filterMap]
    exact ⟨p, hp, by simp [hext, hscan, Except.toOption]⟩

/-- Claim C7 on the sample installation: the pass visits a definition whose decoding
fails, a text file and a definition with a missing archive; the last one is in the list
with `RomsFound` false. -/
theorem walker_collects_witness :
    lackingPath ∈ (sampleFS.glob (Join [sampleConfig.SdPath, "_*".toList])).flatMap sampleFS.walk
      ∧ ToLower (Ext lackingPath) = ".mra".toList
      ∧ ∃ c, scanMRA sampleConfig sampleXml sampleFS lackingPath = .ok c ∧ c.RomsFound = false
        ∧ c ∈ (walkerPass sampleConfig (scanRBF sampleConfig sampleFS)
            (scanMRA sampleConfig sampleXml sampleFS) sampleFS []).1.MRAs := by
  have hmem : lackingPath ∈
      (sampleFS.glob (Join [sampleConfig.SdPath, "_*".toList])).flatMap sampleFS.walk := by
    decide
  have hext : ToLower (Ext lackingPath) = ".mra".toList := by decide
  have hc := scanMRA_ok sampleConfig sampleXml sampleFS lackingPath 1623715200
    (asciiBytes lackingText)
    (plainDoc "Lacking".toList [⟨[]⟩, ⟨"a.zip".toList⟩, ⟨"b.zip".toList⟩])
    (by decide) (by decide) (by decide)
  have hlast : (checkedRoms (satisfied sampleFS (Dir lackingPath))
      (plainDoc "Lacking".toList [⟨[]⟩, ⟨"a.zip".toList⟩, ⟨"b.zip".toList⟩]).Roms).2 = false := by
    decide
  exact ⟨hmem, hext, _, hc, hlast,
    (walker_collects (scanRBF sampleConfig sampleFS)
      (scanMRA sampleConfig sampleXml sampleFS)).2.2 sampleConfig sampleFS [] lackingPath _
      hmem hext hc hlast⟩

/-- The trace of a walker pass: the glob, then for each category root the walk and
the scans of its visited paths. -/
theorem walkerPass_trace (cfg : Config) (scanR : Str → Except ScanError RBF)
    (scanM : Str → Except ScanError MRA) (fs : FS) (trace : List Event) :
    (walkerPass cfg scanR scanM fs trace).2
      = trace ++ Event.glob (Join [cfg.SdPath, "_*".toList]) ::
          (fs.glob (Join [cfg.SdPath, "_*".toList])).flatMap
            (fun root => Event.walk root :: scanEvents (fs.walk root)) := by
  rw [walkerPass_eq]

theorem ScanForCores_skip (cfg : Config) (xml : XmlDecoder) (fs : FS)
    (marshal : Cores → List Nat) (r : Request) (w : World)
    (hf : doForce r = false) (hi : w.index ≠ none) :
    ScanForCores cfg xml fs marshal r w = .returned 200 w := by
  cases hw : w.index with
  | none => exact absurd hw hi
  | some b => simp [ScanForCores, hf, hw]

theorem ScanForCores_build (cfg : Config) (xml : XmlDecoder) (fs : FS)
    (marshal : Cores → List Nat) (r : Request) (w : World)
    (hb : doForce r = true ∨ w.index = none) :
    ScanForCores cfg xml fs marshal r w =
      if fs.writeOK cfg.CoresDBPath then
        .returned 200
          { index := some (marshal
              (walkerPass cfg (scanRBF cfg fs) (scanMRA cfg xml fs) fs w.trace).1)
            trace := (walkerPass cfg (scanRBF cfg fs) (scanMRA cfg xml fs) fs w.trace).2
              ++ [Event.write cfg.CoresDBPath (marshal
                (walkerPass cfg (scanRBF cfg fs) (scanMRA cfg xml fs) fs w.trace).1)] }
      else .fatal := by
  have : (doForce r || w.index.isNone) = true := by
    rcases hb with h | h
    · simp [h]
    · simp [h]
  simp only [ScanForCores, this, if_true]

/-- Claim C6: one call of `ScanForCores` on the persisted index `w.index`.
If `force` is not set and an index exists, the call returns with the state unchanged:
the bytes of the index are the same and no function was called. If `force` is set or no
index exists, the call runs the walker pass on the current filesystem and, when the
write succeeds, returns with the index replaced by the serialization of the fresh scan,
also when an index existed; the process ends instead (`log.Fatal`) exactly when the
pass was due and the write fails. So a call that
returns has run the pass and written the index if and only if `force` was set or there
was no index, and a further call without `force` after any call that returned changes
nothing, whatever the filesystem then holds. -/
theorem ScanForCores_build_or_skip (cfg : Config) (xml : XmlDecoder) (fs : FS)
    (marshal : Cores → List Nat) (r : Request) (w : World) :
    (doForce r = false → w.index ≠ none →
      ScanForCores cfg xml fs marshal r w = .returned 200 w) ∧
    ((doForce r = true ∨ w.index = none) → fs.writeOK cfg.CoresDBPath = true →
      ScanForCores cfg xml fs marshal r w = .returned 200
        { index := some (marshal
            (walkerPass cfg (scanRBF cfg fs) (scanMRA cfg xml fs) fs w.trace).1)
          trace := w.trace ++ Event.glob (Join [cfg.SdPath, "_*".toList]) ::
            (fs.glob (Join [cfg.SdPath, "_*".toList])).flatMap
              (fun root => Event.walk root :: scanEvents (fs.walk root))
            ++ [Event.write cfg.CoresDBPath (marshal
              (walkerPass cfg (scanRBF cfg fs) (scanMRA cfg xml fs) fs w.trace).1)] }) ∧
    (ScanForCores cfg xml fs marshal r w = .fatal ↔
      (doForce r = true ∨ w.index = none) ∧ fs.writeOK cfg.CoresDBPath = false) ∧
    (∀ s w', ScanForCores cfg xml fs marshal r w = .returned s w' →
      ((doForce r = true ∨ w.index = none) ↔ w'.trace ≠ w.trace) ∧
      ((doForce r = true ∨ w.index = none) ↔
        Event.write cfg.CoresDBPath (marshal
          (walkerPass cfg (scanRBF cfg fs) (scanMRA cfg xml fs) fs w.trace).1)
          ∈ w'.trace.drop w.trace.length) ∧
      (∀ (fs2 : FS) (r2 : Request), doForce r2 = false →
        ScanForCores cfg xml fs2 marshal r2 w' = .returned 200 w')) := by
  refine ⟨ScanForCores_skip cfg xml fs marshal r w, ?_, ?_, ?_⟩
  · intro hb hw
    rw [ScanForCores_build cfg xml fs marshal r w hb, if_pos hw, walkerPass_trace]
  · by_cases hb : doForce r = true ∨ w.index = none
    · rw [ScanForCores_build cfg xml fs marshal r w hb]
      cases hw : fs.writeOK cfg.CoresDBPath <;> simp [hb]
    · have hf : doForce r = false := by
        cases h : doForce r
        · rfl
        · exact absurd (Or.inl h) hb
      rw [ScanForCores_skip cfg xml fs marshal r w hf (fun h => hb (Or.inr h))]
      simp [hb]
  · intro s w' hret
    by_cases hb : doForce r = true ∨ w.index = none
    · rw [ScanForCores_build cfg xml fs marshal r w hb] at hret
      by_cases hw : fs.writeOK cfg.CoresDBPath = true
      · rw [if_pos hw, walkerPass_trace] at hret
        injection hret with _ hw'
        subst hw'
        refine ⟨?_, ?_, ?_⟩
        · simp [hb]
        · simp [hb]
        · intro fs2 r2 hr2
          exact ScanForCores_skip cfg xml fs2 marshal r2 _ hr2 (by simp)
      · rw [if_neg hw] at hret
        cases hret
    · have hf : doForce r = false := by
        cases h : doForce r
        · rfl
        · exact absurd (Or.inl h) hb
      have hi : w.index ≠ none := fun h => hb (Or.inr h)
      rw [ScanForCores_skip cfg xml fs marshal r w hf hi] at hret
      injection hret with _ hw'
      subst hw'
      refine ⟨?_, ?_, ?_⟩
      · simp [hb]
      · simp [hb]
      · intro fs2 r2 hr2
        exact ScanForCores_skip cfg xml fs2 marshal r2 _ hr2 hi

/-- Claim C6 on the sample installation: a first call without `force` and without an
index builds it; a second call without `force` returns the same state; a third call with
`force=1` scans again and writes the index again. -/
theorem ScanForCores_build_or_skip_witness :
    doForce ⟨none⟩ = false ∧ doForce ⟨some ("1".toList, [])⟩ = true
      ∧ sampleFS.writeOK sampleConfig.CoresDBPath = true
      ∧ sampleWorld.index = some [2, 2]
      ∧ ScanForCores sampleConfig sampleXml sampleFS sampleMarshal ⟨none⟩ ⟨none, []⟩
        = .returned 200 sampleWorld
      ∧ ScanForCores sampleConfig sampleXml sampleFS sampleMarshal ⟨none⟩ sampleWorld
        = .returned 200 sampleWorld
      ∧ ∃ w2 : World,
          ScanForCores sampleConfig sampleXml sampleFS sampleMarshal
            ⟨some ("1".toList, [])⟩ sampleWorld = .returned 200 w2
          ∧ w2.index = some [2, 2] ∧ w2.trace ≠ sampleWorld.trace := by
  have hbuild : ScanForCores sampleConfig sampleXml sampleFS sampleMarshal ⟨none⟩ ⟨none, []⟩
      = .returned 200 sampleWorld := by decide
  have hagain := ((ScanForCores_build_or_skip sampleConfig sampleXml sampleFS sampleMarshal
    ⟨none⟩ ⟨none, []⟩).2.2.2 200 sampleWorld hbuild).2.2 sampleFS ⟨none⟩ (by decide)
  have hforce := (ScanForCores_build_or_skip sampleConfig sampleXml sampleFS sampleMarshal
    ⟨some ("1".toList, [])⟩ sampleWorld).2.1 (Or.inl (by decide)) (by decide)
  have hchg := ((ScanForCores_build_or_skip sampleConfig sampleXml sampleFS sampleMarshal
    ⟨some ("1".toList, [])⟩ sampleWorld).2.2.2 _ _ hforce).1.mp (Or.inl (by decide))
  exact ⟨by decide, by decide, by decide, by decide, hbuild, hagain, _, hforce, by decide,
    hchg⟩

end WebMenu
